import Mathlib

/-!
# Mosaic block-size detection (`mosaic_detect.cpp`)

A shallow embedding of `detectMosaicResolution` from
`RealSR-NCNN-Android-CLI/Resize/src/main/jni/mosaic_detect.cpp`.

* C++ `int` values are Lean `Int`s; the additions that act on match counts
  (`current_group_sum += ...`, `sum + static_cast<int>(...)`) wrap to 32 bits
  (`wrapInt`), index arithmetic on the small constants does not need it.
* `std::vector` is a `List`; `v[i]` is `List.getD v i 0` (every access in the
  source is guarded by a bounds check, the default is never observed for a
  vector of the source's length).
* The image primitives of OpenCV (colour conversion, Canny, blur,
  `matchTemplate`, `threshold`, `findNonZero`) are an external library.  They
  are a parameter (`Matcher`) giving `points.size()` for an image and a
  pattern.
* `static_cast<int>(x * 0.05)` is an IEEE-754 binary64 product followed by a
  truncation; it is modelled exactly on integers (`roundToDouble`,
  `truncMul`).
* The function returns an `Outcome`: the returned `int` together with the
  sequence of calls made to the external primitives.
-/

namespace MosaicDetect

/-! ## Constants (lines 18-23) -/

/-- Constant `const int GBlur_kernel_size = 5;`. -/
def GBlur_kernel_size : Int := 5

/-- Constant `const int LowRange = 2;`. -/
def LowRange : Int := 2

/-- Constant `const int HighRange = 25;`. -/
def HighRange : Int := 25

/-! ## Machine arithmetic -/

/-- Reduction of an integer to the 32-bit two's-complement range of `int`. -/
def wrapInt (x : Int) : Int :=
  (x + 2147483648) % 4294967296 - 2147483648

/-- Number of low bits that do not fit a 53-bit significand: the least `k`
with `n / 2^k < 2^53` (the first argument is fuel, `n` itself is enough). -/
def excessBits : Nat → Nat → Nat
  | 0, _ => 0
  | fuel + 1, n => if n < 2 ^ 53 then 0 else excessBits fuel (n / 2) + 1

/-- Round-to-nearest, ties-to-even, of the natural number `n` to 53
significant bits: the binary64 rounding of an exact product whose unit in the
last place is a fixed power of two. -/
def roundToDouble (n : Nat) : Nat :=
  let sh := excessBits n n
  let q := n / 2 ^ sh
  let r := n % 2 ^ sh
  let half := 2 ^ sh / 2
  if sh = 0 then n
  else if half < r ∨ (r = half ∧ q % 2 = 1) then (q + 1) * 2 ^ sh
  else q * 2 ^ sh

/-- Value of `static_cast<int>(x * c)` for an `int` `x` and the binary64
constant `c = mant / 2^scale`: `x` converts to `double` exactly (every `int`
has fewer than 53 bits), the exact product `|x| * mant / 2^scale` is rounded to
binary64 (it is 0 or in the normal range), and the cast truncates toward
zero. -/
def truncMul (x : Int) (mant scale : Nat) : Int :=
  let r : Nat := roundToDouble (x.natAbs * mant) / 2 ^ scale
  if x < 0 then -(r : Int) else (r : Int)

/-- Binary64 literal `0.05` is `3602879701896397 / 2^56`. -/
def mant005 : Nat := 3602879701896397

/-- Binary64 literal `0.15` is `5404319552844595 / 2^55`. -/
def mant015 : Nat := 5404319552844595

/-- Line 295: `current_group_sum + static_cast<int>(current_group_sum * 0.05)`. -/
def sumScore (current_group_sum : Int) : Int :=
  wrapInt (current_group_sum + truncMul current_group_sum mant005 56)

/-- Line 296:
`current_max_val_in_group + static_cast<int>(current_max_val_in_group * 0.15)`. -/
def maxScore (current_max_val_in_group : Int) : Int :=
  wrapInt (current_max_val_in_group + truncMul current_max_val_in_group mant015 55)

/-! ## Data -/

/-- Arguments of `detectMosaicResolution`; `pixelData = none` is the null
pointer. -/
structure Image where
  pixelData : Option (List Nat)
  width : Int
  height : Int
  channel : Int

/-- A grid pattern (`cv::Mat img` of lines 74-86): a white square canvas with
1-pixel black vertical lines at the x-offsets `vlines` and horizontal lines at
the y-offsets `hlines`. -/
structure Pattern where
  rows : Int
  cols : Int
  vlines : List Int
  hlines : List Int
deriving DecidableEq

/-- The external image primitives, lines 94-116 and 149-173 taken together:
`countMatches img p` is `points.size()`, the number of positions of the
thresholded `matchTemplate` surface of the edge map of `img` against `p`. -/
structure Matcher where
  countMatches : Image → Pattern → Nat

/-- Calls made to the external primitives, in order. -/
inductive Event where
  | patternCreated (masksize : Int)
  | preprocessed
  | matched (masksize : Int)
deriving DecidableEq

/-- Returned `int` and the calls that were made before returning. -/
structure Outcome where
  result : Int
  trace : List Event
deriving DecidableEq

/-! ## Pattern creation (lines 57-87) -/

/-- Values of the loop variable of `for (m = hi; m >= lo; --m)`. -/
def descend (hi lo : Int) : List Int :=
  (List.range (hi - lo + 1).toNat).map (fun (k : Nat) => hi - (k : Int))

/-- Offsets visited by `for (i = start; i < limit; i += step)`; the first
argument is fuel. -/
def lineOffsets (limit step : Int) : Nat → Int → List Int
  | 0, _ => []
  | fuel + 1, i =>
    if i < limit then i :: lineOffsets limit step fuel (i + step) else []

/-- Lines 65 and 74-85: the canvas of side `2 + masksize + masksize - 1 + 2`
with its grid lines. -/
def makePattern (masksize : Int) : Pattern :=
  let maskimg_size := 2 + masksize + masksize - 1 + 2
  { rows := maskimg_size
    cols := maskimg_size
    vlines := lineOffsets maskimg_size (masksize - 1) maskimg_size.toNat 2
    hlines := lineOffsets maskimg_size (masksize - 1) maskimg_size.toNat 2 }

/-- Body of the loop of lines 61-87 for one `masksize`; the state is the
`patterns` vector (`none` is an empty `cv::Mat`) and the trace. -/
def patternStep (width height : Int)
    (st : List (Option Pattern) × List Event) (masksize : Int) :
    List (Option Pattern) × List Event :=
  let pattern_idx := masksize - 2
  let maskimg_size := 2 + masksize + masksize - 1 + 2
  if maskimg_size > width ∨ maskimg_size > height then st
  else (st.1.set pattern_idx.toNat (some (makePattern masksize)),
        st.2 ++ [Event.patternCreated masksize])

/-- Lines 57-87: `patterns(HighRange + 2)` filled for `masksize` from
`HighRange + 2` down to `LowRange + 2`. -/
def createPatterns (width height : Int) : List (Option Pattern) × List Event :=
  (descend (HighRange + 2) (LowRange + 2)).foldl (patternStep width height)
    (List.replicate (HighRange + 2).toNat none, [])

/-! ## Template matching (lines 126-190) -/

/-- Body of the loop of lines 130-190 for one `masksize`; the state is the
`resolutions` vector and the trace. -/
def matchStep (cv : Matcher) (img : Image) (patterns : List (Option Pattern))
    (st : List Int × List Event) (masksize : Int) : List Int × List Event :=
  let pattern_idx := masksize - 2
  let resolution_idx := masksize - 1
  if pattern_idx < 0 ∨ pattern_idx ≥ patterns.length ∨
      resolution_idx < 0 ∨ resolution_idx ≥ st.1.length then st
  else
    match patterns.getD pattern_idx.toNat none with
    | none => st
    | some templateImg =>
      let w := templateImg.cols
      let h := templateImg.rows
      if w > img.width ∨ h > img.height then st
      else
        let rects := wrapInt (cv.countMatches img templateImg)
        (st.1.set resolution_idx.toNat rects, st.2 ++ [Event.matched masksize])

/-- Lines 126-190: `resolutions(HighRange + 3, 0)` filled for `masksize` from
`HighRange + 2` down to `LowRange + 2`. -/
def matchPatterns (cv : Matcher) (img : Image) (patterns : List (Option Pattern))
    (trace : List Event) : List Int × List Event :=
  (descend (HighRange + 2) (LowRange + 2)).foldl (matchStep cv img patterns)
    (List.replicate (HighRange + 3).toNat 0, trace)

/-! ## Resolution selection (lines 206-357) -/

/-- Lines 222-226: the indices pushed by
`for (size_t i = 1; i < resolutions.size() - 1; ++i)`, in order (a vector
holds at least two entries here, the source's has `HighRange + 3`). -/
def localMinima (resolutions : List Int) : List Int :=
  (List.range' 1 (resolutions.length - 2)).foldl
    (fun (acc : List Int) (i : Nat) =>
      if resolutions.getD i 0 < resolutions.getD (i - 1) 0 ∧
          resolutions.getD i 0 ≤ resolutions.getD (i + 1) 0
      then acc ++ [(i : Int)] else acc)
    []

/-- The effect of `std::unique`: every run of equal neighbours is reduced to one
element. -/
def unique : List Int → List Int
  | [] => []
  | [a] => [a]
  | a :: b :: t => if a = b then unique (b :: t) else a :: unique (b :: t)

/-- Lines 213-233: `LowRange`, the local minima and `HighRange + 2`, sorted
(`std::sort`) and made unique. -/
def extremaMIN_indices (resolutions : List Int) : List Int :=
  unique (List.insertionSort (· ≤ ·)
    ([LowRange] ++ localMinima resolutions ++ [HighRange + 2]))

/-- Local variables of the scan of one group (lines 268-270). -/
structure GroupScan where
  current_group_sum : Int
  current_max_val_in_group : Int
  current_original_index_of_max_in_group : Int
deriving DecidableEq

/-- Body of the loop of lines 273-286 for one `res_idx`. -/
def scanStep (resolutions : List Int) (g : GroupScan) (res_idx : Int) : GroupScan :=
  let v := resolutions.getD res_idx.toNat 0
  let sum := wrapInt (g.current_group_sum + v)
  if g.current_max_val_in_group = -1 ∨ v > g.current_max_val_in_group then
    { current_group_sum := sum
      current_max_val_in_group := v
      current_original_index_of_max_in_group := res_idx }
  else
    { g with current_group_sum := sum }

/-- Values of the loop variable of `for (i = lo; i <= hi; ++i)`. -/
def ascend (lo hi : Int) : List Int :=
  (List.range (hi - lo + 1).toNat).map (fun (k : Nat) => lo + (k : Int))

/-- Lines 268-286: sum, maximum and index of the maximum over
`[group_start_res_index, group_end_res_index]`. -/
def scanGroup (resolutions : List Int)
    (group_start_res_index group_end_res_index : Int) : GroupScan :=
  (ascend group_start_res_index group_end_res_index).foldl (scanStep resolutions)
    { current_group_sum := 0
      current_max_val_in_group := -1
      current_original_index_of_max_in_group := -1 }

/-- Best group so far (lines 246-248). -/
structure Best where
  best_group_sum_score : Int
  best_group_max_val_score : Int
  best_original_index_of_max : Int
deriving DecidableEq

/-- Lines 299-319: the value of `update_best`. -/
def update_best (best : Best) (current_sum_score current_max_val_score
    current_original_index_of_max_in_group : Int) : Bool :=
  if best.best_original_index_of_max = -1 then true
  else if current_sum_score > best.best_group_sum_score then true
  else if current_sum_score = best.best_group_sum_score then
    if current_max_val_score > best.best_group_max_val_score then true
    else if current_max_val_score = best.best_group_max_val_score then
      decide (current_original_index_of_max_in_group < best.best_original_index_of_max)
    else false
  else false

/-- Body of the loop of lines 255-330 for the pair
`(extremaMIN_indices[i], extremaMIN_indices[i+1])`. -/
def groupStep (resolutions : List Int) (best : Best) (group : Int × Int) : Best :=
  let group_start_res_index := group.1
  let group_end_res_index := group.2
  if group_start_res_index < 0 ∨ group_start_res_index ≥ resolutions.length ∨
      group_end_res_index < 0 ∨ group_end_res_index ≥ resolutions.length ∨
      group_start_res_index > group_end_res_index then best
  else
    let g := scanGroup resolutions group_start_res_index group_end_res_index
    if g.current_max_val_in_group ≤ 0 then best
    else
      let current_sum_score := sumScore g.current_group_sum
      let current_max_val_score := maxScore g.current_max_val_in_group
      if update_best best current_sum_score current_max_val_score
          g.current_original_index_of_max_in_group then
        { best_group_sum_score := current_sum_score
          best_group_max_val_score := current_max_val_score
          best_original_index_of_max := g.current_original_index_of_max_in_group }
      else best

/-- The pairs `(v[i], v[i+1])` for `i` from `0` to `v.size() - 2`. -/
def adjacentPairs (v : List Int) : List (Int × Int) :=
  v.zip v.tail

/-- Lines 255-330: the fold of `groupStep` over the adjacent extrema. -/
def bestGroup (resolutions : List Int) : Best :=
  (adjacentPairs (extremaMIN_indices resolutions)).foldl (groupStep resolutions)
    { best_group_sum_score := -1
      best_group_max_val_score := -1
      best_original_index_of_max := -1 }

/-- Lines 206-357, the Resolution Selector: the returned value as a function
of the `resolutions` vector. -/
def selectResolution (resolutions : List Int) : Int :=
  let MosaicResolutionOfImage := HighRange + 1
  if (extremaMIN_indices resolutions).length < 2 then MosaicResolutionOfImage
  else
    let best := bestGroup resolutions
    if best.best_original_index_of_max ≠ -1 then
      let MosaicResolutionOfImage := best.best_original_index_of_max + 1
      if MosaicResolutionOfImage = 0 then HighRange + 1 else MosaicResolutionOfImage
    else MosaicResolutionOfImage

/-! ## The entry point -/

/-- The function `detectMosaicResolution(pixelData, width, height, channel)`.
Lines 40-49 only print a message and are not represented. -/
def detectMosaicResolution (cv : Matcher) (img : Image) : Outcome :=
  if img.pixelData = none ∨ img.width ≤ 0 ∨ img.height ≤ 0 ∨
      (img.channel ≠ 3 ∧ img.channel ≠ 4) then
    { result := -1, trace := [] }
  else if GBlur_kernel_size.tmod 2 = 0 ∨ GBlur_kernel_size ≤ 0 then
    { result := -1, trace := [] }
  else
    let created := createPatterns img.width img.height
    let counted := matchPatterns cv img created.1 (created.2 ++ [Event.preprocessed])
    { result := selectResolution counted.1, trace := counted.2 }

/-! ## Predicates used in the statements -/

/-- The input passes the validation of line 26. -/
def validInput (img : Image) : Prop :=
  img.pixelData ≠ none ∧ 0 < img.width ∧ 0 < img.height ∧
    (img.channel = 3 ∨ img.channel = 4)

/-- The `resolutions` vector (MatchCount array) that a call on `img` hands to
the selection. -/
def resolutionsOf (cv : Matcher) (img : Image) : List Int :=
  (matchPatterns cv img (createPatterns img.width img.height).1
    ((createPatterns img.width img.height).2 ++ [Event.preprocessed])).1

/-- The bounds check of lines 260-262 passes. -/
def validGroup (resolutions : List Int) (p : Int × Int) : Prop :=
  ¬ (p.1 < 0 ∨ p.1 ≥ resolutions.length ∨ p.2 < 0 ∨ p.2 ≥ resolutions.length ∨ p.1 > p.2)

/-- The group passes the bounds check and the test of line 289: it takes part
in the comparison. -/
def qualifies (resolutions : List Int) (p : Int × Int) : Prop :=
  validGroup resolutions p ∧ 0 < (scanGroup resolutions p.1 p.2).current_max_val_in_group

/-- What a qualifying group writes into the best-so-far variables. -/
def groupEntry (resolutions : List Int) (p : Int × Int) : Best :=
  { best_group_sum_score := sumScore (scanGroup resolutions p.1 p.2).current_group_sum
    best_group_max_val_score :=
      maxScore (scanGroup resolutions p.1 p.2).current_max_val_in_group
    best_original_index_of_max :=
      (scanGroup resolutions p.1 p.2).current_original_index_of_max_in_group }

/-- The initial values of lines 246-248. -/
def initialBest : Best :=
  { best_group_sum_score := -1
    best_group_max_val_score := -1
    best_original_index_of_max := -1 }

/-- Order of the comparison ladder of lines 304-318: `a` is not beaten by `b`
(higher sum score, then higher maximum score, then smaller index). -/
def noWorse (a b : Best) : Prop :=
  b.best_group_sum_score < a.best_group_sum_score ∨
    (b.best_group_sum_score = a.best_group_sum_score ∧
      (b.best_group_max_val_score < a.best_group_max_val_score ∨
        (b.best_group_max_val_score = a.best_group_max_val_score ∧
          a.best_original_index_of_max ≤ b.best_original_index_of_max)))

/-- The recorded maximum is unset, or it is the count at the recorded index and
that index was visited. -/
def ScanInv (resolutions : List Int) (S : Int → Prop) (g : GroupScan) : Prop :=
  (g.current_max_val_in_group = -1 ∧ g.current_original_index_of_max_in_group = -1) ∨
    (S g.current_original_index_of_max_in_group ∧
      resolutions.getD g.current_original_index_of_max_in_group.toNat 0 =
        g.current_max_val_in_group)

/-- Either nothing was recorded or the recorded index holds a positive count. -/
def BestInv (resolutions : List Int) (best : Best) : Prop :=
  best.best_original_index_of_max = -1 ∨
    (0 ≤ best.best_original_index_of_max ∧
      best.best_original_index_of_max < resolutions.length ∧
      0 < resolutions.getD best.best_original_index_of_max.toNat 0)

/-! ## Quantities and selectors named in the claims -/

/-- Total of the counts over the closed range of indices
`[group_start_res_index, group_end_res_index]`. -/
def groupTotal (resolutions : List Int)
    (group_start_res_index group_end_res_index : Int) : Int :=
  ((ascend group_start_res_index group_end_res_index).map
    (fun i => resolutions.getD i.toNat 0)).sum

/-- Follows the claim's words, not the source: the value of `update_best` when
the third tie-break test (lines 314-316, current index below the best index)
is removed, so that on a full tie the earlier group is kept. -/
def update_best_keep_earlier (best : Best)
    (current_sum_score current_max_val_score : Int) : Bool :=
  if best.best_original_index_of_max = -1 then true
  else if current_sum_score > best.best_group_sum_score then true
  else if current_sum_score = best.best_group_sum_score then
    if current_max_val_score > best.best_group_max_val_score then true
    else false
  else false

/-- Follows the claim's words, not the source: `groupStep` with
`update_best_keep_earlier` in the place of `update_best`. -/
def groupStepKeepEarlier (resolutions : List Int) (best : Best) (group : Int × Int) : Best :=
  let group_start_res_index := group.1
  let group_end_res_index := group.2
  if group_start_res_index < 0 ∨ group_start_res_index ≥ resolutions.length ∨
      group_end_res_index < 0 ∨ group_end_res_index ≥ resolutions.length ∨
      group_start_res_index > group_end_res_index then best
  else
    let g := scanGroup resolutions group_start_res_index group_end_res_index
    if g.current_max_val_in_group ≤ 0 then best
    else
      let current_sum_score := sumScore g.current_group_sum
      let current_max_val_score := maxScore g.current_max_val_in_group
      if update_best_keep_earlier best current_sum_score current_max_val_score then
        { best_group_sum_score := current_sum_score
          best_group_max_val_score := current_max_val_score
          best_original_index_of_max := g.current_original_index_of_max_in_group }
      else best

/-- Follows the claim's words, not the source: `bestGroup` over
`groupStepKeepEarlier`. -/
def bestGroupKeepEarlier (resolutions : List Int) : Best :=
  (adjacentPairs (extremaMIN_indices resolutions)).foldl (groupStepKeepEarlier resolutions)
    { best_group_sum_score := -1
      best_group_max_val_score := -1
      best_original_index_of_max := -1 }

/-- Follows the claim's words, not the source: the selector without the third
tie-break test. -/
def selectResolutionKeepEarlier (resolutions : List Int) : Int :=
  let MosaicResolutionOfImage := HighRange + 1
  if (extremaMIN_indices resolutions).length < 2 then MosaicResolutionOfImage
  else
    let best := bestGroupKeepEarlier resolutions
    if best.best_original_index_of_max ≠ -1 then
      let MosaicResolutionOfImage := best.best_original_index_of_max + 1
      if MosaicResolutionOfImage = 0 then HighRange + 1 else MosaicResolutionOfImage
    else MosaicResolutionOfImage

/-- Follows the claim's words, not the source: `groupStep` with the raw group
sum and the raw group maximum compared in the place of `sum_score` and
`max_score`. -/
def groupStepRaw (resolutions : List Int) (best : Best) (group : Int × Int) : Best :=
  let group_start_res_index := group.1
  let group_end_res_index := group.2
  if group_start_res_index < 0 ∨ group_start_res_index ≥ resolutions.length ∨
      group_end_res_index < 0 ∨ group_end_res_index ≥ resolutions.length ∨
      group_start_res_index > group_end_res_index then best
  else
    let g := scanGroup resolutions group_start_res_index group_end_res_index
    if g.current_max_val_in_group ≤ 0 then best
    else
      if update_best best g.current_group_sum g.current_max_val_in_group
          g.current_original_index_of_max_in_group then
        { best_group_sum_score := g.current_group_sum
          best_group_max_val_score := g.current_max_val_in_group
          best_original_index_of_max := g.current_original_index_of_max_in_group }
      else best

/-- Follows the claim's words, not the source: `bestGroup` over `groupStepRaw`. -/
def bestGroupRaw (resolutions : List Int) : Best :=
  (adjacentPairs (extremaMIN_indices resolutions)).foldl (groupStepRaw resolutions)
    { best_group_sum_score := -1
      best_group_max_val_score := -1
      best_original_index_of_max := -1 }

/-- Follows the claim's words, not the source: the selector that compares the
raw group sum and the raw group maximum. -/
def selectResolutionRaw (resolutions : List Int) : Int :=
  let MosaicResolutionOfImage := HighRange + 1
  if (extremaMIN_indices resolutions).length < 2 then MosaicResolutionOfImage
  else
    let best := bestGroupRaw resolutions
    if best.best_original_index_of_max ≠ -1 then
      let MosaicResolutionOfImage := best.best_original_index_of_max + 1
      if MosaicResolutionOfImage = 0 then HighRange + 1 else MosaicResolutionOfImage
    else MosaicResolutionOfImage

/-- What a qualifying group writes into the best-so-far variables of the
selector on raw values (`groupStepRaw`). -/
def rawEntry (resolutions : List Int) (p : Int × Int) : Best :=
  { best_group_sum_score := (scanGroup resolutions p.1 p.2).current_group_sum
    best_group_max_val_score := (scanGroup resolutions p.1 p.2).current_max_val_in_group
    best_original_index_of_max :=
      (scanGroup resolutions p.1 p.2).current_original_index_of_max_in_group }

/-- The best-so-far variables of the source's selector (`b`) and of the
selector on raw values (`r`) describe the same group: same index, and the
scores of `b` are the raw values of `r` with their bonus. -/
def ScoreRel (b r : Best) : Prop :=
  b.best_original_index_of_max = r.best_original_index_of_max ∧
    (b.best_original_index_of_max ≠ -1 →
      0 ≤ r.best_group_sum_score ∧ 0 ≤ r.best_group_max_val_score ∧
        b.best_group_sum_score = r.best_group_sum_score + r.best_group_sum_score / 20 ∧
        b.best_group_max_val_score =
          r.best_group_max_val_score + 3 * r.best_group_max_val_score / 20)

/-- The test of line 68: the canvas of `masksize` does not fit the image. -/
def oversized (width height masksize : Int) : Prop :=
  2 + masksize + masksize - 1 + 2 > width ∨ 2 + masksize + masksize - 1 + 2 > height

/-! ## Binary64 products -/

theorem excessBits_le : ∀ (fuel n j : Nat), n < 2 ^ (53 + j) → excessBits fuel n ≤ j
  | 0, _, _, _ => Nat.zero_le _
  | fuel + 1, n, j, h => by
    unfold excessBits
    split
    · exact Nat.zero_le _
    · rename_i hn
      cases j with
      | zero => exact absurd h hn
      | succ j =>
        have h2 : n / 2 < 2 ^ (53 + j) := by
          have : 2 ^ (53 + (j + 1)) = 2 * 2 ^ (53 + j) := by
            rw [← Nat.add_assoc, Nat.pow_succ, Nat.mul_comm]
          omega
        have := excessBits_le fuel (n / 2) j h2
        omega

theorem excessBits_div : ∀ (fuel n : Nat), n < 2 ^ (53 + fuel) →
    n / 2 ^ excessBits fuel n < 2 ^ 53
  | 0, n, h => by
    unfold excessBits
    simpa using h
  | fuel + 1, n, h => by
    unfold excessBits
    split
    · rename_i hn
      simpa using hn
    · have h2 : n / 2 < 2 ^ (53 + fuel) := by
        have : 2 ^ (53 + (fuel + 1)) = 2 * 2 ^ (53 + fuel) := by
          rw [← Nat.add_assoc, Nat.pow_succ, Nat.mul_comm]
        omega
      have := excessBits_div fuel (n / 2) h2
      rw [Nat.pow_succ, Nat.mul_comm, ← Nat.div_div_eq_div_mul]
      exact this

/-- What the rounding guarantees: the result is a multiple of the unit `P` of
the last kept bit, it is within half a unit of the argument, and the argument
has at most 53 bits above the unit. -/
theorem roundToDouble_spec (n : Nat) :
    ∃ P : Nat, P = 2 ^ excessBits n n ∧ (P = 1 ∨ P % 2 = 0) ∧ P ∣ roundToDouble n ∧
      n ≤ roundToDouble n + P / 2 ∧ roundToDouble n ≤ n + P / 2 ∧ n < 2 ^ 53 * P := by
  refine ⟨2 ^ excessBits n n, rfl, ?_, ?_, ?_, ?_, ?_⟩
  · cases h : excessBits n n with
    | zero => left; rfl
    | succ k => right; rw [Nat.pow_succ]; omega
  · unfold roundToDouble
    dsimp only
    split
    · rename_i h0
      rw [h0]
      exact one_dvd _
    · split
      · exact Dvd.intro_left _ rfl
      · exact Dvd.intro_left _ rfl
  · unfold roundToDouble
    dsimp only
    have hdm := Nat.div_add_mod n (2 ^ excessBits n n)
    rw [Nat.mul_comm] at hdm
    split
    · omega
    · split
      · rw [Nat.add_mul, Nat.one_mul]
        omega
      · rename_i h1 h2
        omega
  · unfold roundToDouble
    dsimp only
    have hdm := Nat.div_add_mod n (2 ^ excessBits n n)
    rw [Nat.mul_comm] at hdm
    have hlt : n % 2 ^ excessBits n n < 2 ^ excessBits n n :=
      Nat.mod_lt _ (Nat.pow_pos (by decide))
    split
    · omega
    · rename_i h0
      have heven : 2 ^ excessBits n n % 2 = 0 := by
        cases h : excessBits n n with
        | zero => exact absurd h h0
        | succ k => rw [Nat.pow_succ]; omega
      split
      · rename_i h1
        rw [Nat.add_mul, Nat.one_mul]
        omega
      · omega
  · have h1 : n < 2 ^ (53 + n) :=
      lt_of_lt_of_le (Nat.lt_two_pow n) (Nat.pow_le_pow_right (by decide) (by omega))
    have := excessBits_div n n h1
    exact (Nat.div_lt_iff_lt_mul (Nat.pow_pos (by decide))).mp this

theorem multiple_le_of_lt_add {P A R : Nat} (hA : P ∣ A) (hR : P ∣ R) (h : A < R + P) :
    A ≤ R := by
  obtain ⟨a, rfl⟩ := hA
  obtain ⟨b, rfl⟩ := hR
  have h2 : P * a < P * (b + 1) := by
    rw [Nat.mul_add, Nat.mul_one]
    exact h
  have h3 : a < b + 1 := Nat.lt_of_mul_lt_mul_left h2
  exact Nat.mul_le_mul_left P (by omega)

/-- For an `int` magnitude the binary64 product with `0.05`, truncated, is the
integer quotient by 20. -/
theorem truncMul005 (s : Nat) (hs : s < 2 ^ 31) :
    roundToDouble (s * mant005) / 2 ^ 56 = s / 20 := by
  obtain ⟨P, hP, hpar, hdvd, hlo, hhi, hbits⟩ := roundToDouble_spec (s * mant005)
  have hsh : excessBits (s * mant005) (s * mant005) ≤ 31 := by
    apply excessBits_le
    unfold mant005
    norm_num at hs ⊢
    omega
  have hP31 : P ≤ 2 ^ 31 := by
    rw [hP]
    exact Nat.pow_le_pow_right (by decide) hsh
  have hPd : P ∣ 2 ^ 56 := by
    rw [hP]
    exact Nat.pow_dvd_pow 2 (by omega)
  have hA : P ∣ s / 20 * 2 ^ 56 := Dvd.dvd.mul_left hPd _
  unfold mant005 at hdvd hlo hhi hbits ⊢
  norm_num at hs hP31 hA hlo hhi hbits ⊢
  have hlow : s / 20 * 72057594037927936 ≤ roundToDouble (s * 3602879701896397) := by
    apply multiple_le_of_lt_add hA hdvd
    omega
  apply Nat.div_eq_of_lt_le
  · exact hlow
  · omega

/-- For an `int` magnitude the binary64 product with `0.15`, truncated, is the
integer quotient of `3 * m` by 20. -/
theorem truncMul015 (m : Nat) (hm : m < 2 ^ 31) :
    roundToDouble (m * mant015) / 2 ^ 55 = 3 * m / 20 := by
  obtain ⟨P, hP, hpar, hdvd, hlo, hhi, hbits⟩ := roundToDouble_spec (m * mant015)
  have hsh : excessBits (m * mant015) (m * mant015) ≤ 31 := by
    apply excessBits_le
    unfold mant015
    norm_num at hm ⊢
    omega
  have hP31 : P ≤ 2 ^ 31 := by
    rw [hP]
    exact Nat.pow_le_pow_right (by decide) hsh
  have hPd : P ∣ 2 ^ 55 := by
    rw [hP]
    exact Nat.pow_dvd_pow 2 (by omega)
  have hA : P ∣ 3 * m / 20 * 2 ^ 55 := Dvd.dvd.mul_left hPd _
  unfold mant015 at hdvd hlo hhi hbits ⊢
  norm_num at hm hP31 hA hlo hhi hbits ⊢
  have hlow : 3 * m / 20 * 36028797018963968 ≤ roundToDouble (m * 5404319552844595) := by
    apply multiple_le_of_lt_add hA hdvd
    omega
  apply Nat.div_eq_of_lt_le
  · exact hlow
  · omega

theorem wrapInt_of_range (x : Int) (h0 : 0 ≤ x) (h1 : x < 2147483648) : wrapInt x = x := by
  unfold wrapInt
  omega

theorem truncMul_eq005 (s : Int) (h0 : 0 ≤ s) (h1 : s < 2147483648) :
    truncMul s mant005 56 = s / 20 := by
  obtain ⟨n, rfl⟩ := Int.eq_ofNat_of_zero_le h0
  have hn : n < 2 ^ 31 := by
    norm_num
    omega
  unfold truncMul
  dsimp only
  rw [Int.natAbs_ofNat, truncMul005 n hn, if_neg (by omega)]
  omega

theorem truncMul_eq015 (m : Int) (h0 : 0 ≤ m) (h1 : m < 2147483648) :
    truncMul m mant015 55 = 3 * m / 20 := by
  obtain ⟨n, rfl⟩ := Int.eq_ofNat_of_zero_le h0
  have hn : n < 2 ^ 31 := by
    norm_num
    omega
  unfold truncMul
  dsimp only
  rw [Int.natAbs_ofNat, truncMul015 n hn, if_neg (by omega)]
  omega

theorem sumScore_eq (s : Int) (h0 : 0 ≤ s) (h1 : s + s / 20 < 2147483648) :
    sumScore s = s + s / 20 := by
  unfold sumScore
  rw [truncMul_eq005 s h0 (by omega), wrapInt_of_range _ (by omega) h1]

theorem maxScore_eq (m : Int) (h0 : 0 ≤ m) (h1 : m + 3 * m / 20 < 2147483648) :
    maxScore m = m + 3 * m / 20 := by
  unfold maxScore
  rw [truncMul_eq015 m h0 (by omega), wrapInt_of_range _ (by omega) h1]

/-! ## Loop ranges and folds -/

theorem mem_descend {hi lo m : Int} : m ∈ descend hi lo ↔ lo ≤ m ∧ m ≤ hi := by
  unfold descend
  simp only [List.mem_map, List.mem_range]
  constructor
  · rintro ⟨k, hk, rfl⟩
    have := Int.lt_toNat.mp hk
    omega
  · intro h
    obtain ⟨k, hk⟩ : ∃ k : Nat, (k : Int) = hi - m :=
      ⟨(hi - m).toNat, Int.toNat_of_nonneg (by omega)⟩
    exact ⟨k, Int.lt_toNat.mpr (by omega), by omega⟩

theorem mem_ascend {lo hi m : Int} : m ∈ ascend lo hi ↔ lo ≤ m ∧ m ≤ hi := by
  unfold ascend
  simp only [List.mem_map, List.mem_range]
  constructor
  · rintro ⟨k, hk, rfl⟩
    have := Int.lt_toNat.mp hk
    omega
  · intro h
    obtain ⟨k, hk⟩ : ∃ k : Nat, (k : Int) = m - lo :=
      ⟨(m - lo).toNat, Int.toNat_of_nonneg (by omega)⟩
    exact ⟨k, Int.lt_toNat.mpr (by omega), by omega⟩

/-- A loop whose body leaves the state alone at every element does nothing. -/
theorem foldl_skip {σ α : Type} (f : σ → α → σ) (l : List α) (s : σ)
    (h : ∀ x ∈ l, f s x = s) : l.foldl f s = s := by
  induction l with
  | nil => rfl
  | cons x t ih =>
    rw [List.foldl_cons, h x (List.mem_cons_self x t)]
    exact ih (fun y hy => h y (List.mem_cons_of_mem x hy))

/-- An invariant of the loop body is an invariant of the loop. -/
theorem foldl_invariant {σ α : Type} (P : σ → Prop) (f : σ → α → σ) (l : List α)
    (hstep : ∀ s, ∀ x ∈ l, P s → P (f s x)) (s : σ) (hs : P s) :
    P (l.foldl f s) := by
  induction l generalizing s with
  | nil => exact hs
  | cons x t ih =>
    rw [List.foldl_cons]
    exact ih (fun s y hy => hstep s y (List.mem_cons_of_mem x hy)) _
      (hstep s x (List.mem_cons_self x t) hs)

theorem getD_mem_or_default (l : List Int) (i : Nat) :
    l.getD i 0 ∈ l ∨ l.getD i 0 = 0 := by
  by_cases h : i < l.length
  · left
    rw [List.getD_eq_getElem l 0 h]
    exact List.getElem_mem h
  · right
    exact List.getD_eq_default l 0 (by omega)

/-! ## Pattern creation and matching -/

/-- Canvas sides are at least 11 in the loop range. -/
theorem patternStep_too_small (width height : Int) (h : width < 11 ∨ height < 11)
    (st : List (Option Pattern) × List Event) (m : Int)
    (hm : m ∈ descend (HighRange + 2) (LowRange + 2)) :
    patternStep width height st m = st := by
  have hm2 := mem_descend.mp hm
  simp only [LowRange, HighRange] at hm2
  unfold patternStep
  rw [if_pos]
  omega

theorem createPatterns_too_small (width height : Int) (h : width < 11 ∨ height < 11) :
    createPatterns width height = (List.replicate 27 none, []) := by
  unfold createPatterns
  rw [foldl_skip _ _ _ (fun m hm => patternStep_too_small width height h _ m hm)]
  rfl

theorem getD_replicate_none (n i : Nat) :
    (List.replicate n (none : Option Pattern)).getD i none = none := by
  by_cases h : i < (List.replicate n (none : Option Pattern)).length
  · rw [List.getD_eq_getElem _ _ h]
    simp
  · exact List.getD_eq_default _ _ (by omega)

theorem matchStep_no_pattern (cv : Matcher) (img : Image) (n : Nat)
    (st : List Int × List Event) (m : Int) :
    matchStep cv img (List.replicate n none) st m = st := by
  unfold matchStep
  simp only [getD_replicate_none]
  split <;> rfl

theorem matchPatterns_no_pattern (cv : Matcher) (img : Image) (n : Nat)
    (trace : List Event) :
    matchPatterns cv img (List.replicate n none) trace =
      (List.replicate 28 0, trace) := by
  unfold matchPatterns
  rw [foldl_skip _ _ _ (fun m _ => matchStep_no_pattern cv img n _ m)]
  rfl

/-- One iteration of the matching loop writes at most the slot `masksize - 1`. -/
theorem matchStep_fst (cv : Matcher) (img : Image) (patterns : List (Option Pattern))
    (st : List Int × List Event) (m : Int) :
    (matchStep cv img patterns st m).1 = st.1 ∨
      ∃ v, (matchStep cv img patterns st m).1 = st.1.set (m - 1).toNat v := by
  unfold matchStep
  dsimp only
  split
  · exact Or.inl rfl
  · split
    · exact Or.inl rfl
    · split
      · exact Or.inl rfl
      · exact Or.inr ⟨_, rfl⟩

/-- The `resolutions` vector keeps its length and the slots outside
`[LowRange + 1, HighRange + 1]` keep their initial 0. -/
theorem matchPatterns_shape (cv : Matcher) (img : Image)
    (patterns : List (Option Pattern)) (trace : List Event) :
    (matchPatterns cv img patterns trace).1.length = 28 ∧
      ∀ j : Nat, j < 3 ∨ 27 ≤ j → (matchPatterns cv img patterns trace).1.getD j 0 = 0 := by
  unfold matchPatterns
  refine foldl_invariant
    (fun st : List Int × List Event =>
      st.1.length = 28 ∧ ∀ j : Nat, j < 3 ∨ 27 ≤ j → st.1.getD j 0 = 0)
    _ _ ?_ _ ?_
  · intro st m hm hst
    have hm2 := mem_descend.mp hm
    simp only [LowRange, HighRange] at hm2
    rcases matchStep_fst cv img patterns st m with h | ⟨v, h⟩
    · rw [h]
      exact hst
    · rw [h]
      refine ⟨by rw [List.length_set]; exact hst.1, ?_⟩
      intro j hj
      rw [List.getD_eq_getElem?_getD, List.getElem?_set_ne (by omega),
        ← List.getD_eq_getElem?_getD]
      exact hst.2 j hj
  · refine ⟨by simp [HighRange], ?_⟩
    intro j _
    rcases getD_mem_or_default (List.replicate (HighRange + 3).toNat 0) j with h | h
    · exact List.eq_of_mem_replicate h
    · exact h

/-! ## The scan of one group -/

theorem scanStep_inv (resolutions : List Int) (S : Int → Prop) (g : GroupScan)
    (i : Int) (hi : S i) (hg : ScanInv resolutions S g) :
    ScanInv resolutions S (scanStep resolutions g i) := by
  unfold scanStep
  dsimp only
  split
  · exact Or.inr ⟨hi, rfl⟩
  · exact hg

theorem scanGroup_inv (resolutions : List Int) (s e : Int) :
    ScanInv resolutions (fun i => s ≤ i ∧ i ≤ e) (scanGroup resolutions s e) := by
  unfold scanGroup
  refine foldl_invariant (ScanInv resolutions (fun i => s ≤ i ∧ i ≤ e)) _ _ ?_ _ ?_
  · intro g i hi hg
    exact scanStep_inv resolutions _ g i (mem_ascend.mp hi) hg
  · exact Or.inl ⟨rfl, rfl⟩

/-- A positive group maximum is the count at the recorded index, which lies in
the group. -/
theorem scanGroup_pos (resolutions : List Int) (s e : Int)
    (h : 0 < (scanGroup resolutions s e).current_max_val_in_group) :
    s ≤ (scanGroup resolutions s e).current_original_index_of_max_in_group ∧
      (scanGroup resolutions s e).current_original_index_of_max_in_group ≤ e ∧
      resolutions.getD
        (scanGroup resolutions s e).current_original_index_of_max_in_group.toNat 0 =
        (scanGroup resolutions s e).current_max_val_in_group := by
  rcases scanGroup_inv resolutions s e with ⟨h1, _⟩ | ⟨⟨h1, h2⟩, h3⟩
  · omega
  · exact ⟨h1, h2, h3⟩

theorem scanStep_max_mono (resolutions : List Int) (g : GroupScan) (i : Int)
    (hg : 0 < g.current_max_val_in_group) :
    g.current_max_val_in_group ≤ (scanStep resolutions g i).current_max_val_in_group := by
  unfold scanStep
  dsimp only
  split
  · rename_i h
    dsimp only
    omega
  · exact le_refl _

theorem scan_foldl_max_mono (resolutions : List Int) (l : List Int) (g : GroupScan)
    (hg : 0 < g.current_max_val_in_group) :
    g.current_max_val_in_group ≤
      (l.foldl (scanStep resolutions) g).current_max_val_in_group := by
  induction l generalizing g with
  | nil => exact le_refl _
  | cons i t ih =>
    rw [List.foldl_cons]
    have h1 := scanStep_max_mono resolutions g i hg
    have h2 := ih (scanStep resolutions g i) (by omega)
    omega

theorem scanStep_ge (resolutions : List Int) (g : GroupScan) (i : Int) :
    resolutions.getD i.toNat 0 ≤ (scanStep resolutions g i).current_max_val_in_group := by
  unfold scanStep
  dsimp only
  split
  · exact le_refl _
  · rename_i h
    dsimp only
    omega

/-- A positive count that the scan visits makes the group maximum positive. -/
theorem scan_foldl_pos (resolutions : List Int) (l : List Int) (g : GroupScan)
    (j : Int) (hj : j ∈ l) (hv : 0 < resolutions.getD j.toNat 0) :
    0 < (l.foldl (scanStep resolutions) g).current_max_val_in_group := by
  induction l generalizing g with
  | nil => cases hj
  | cons i t ih =>
    rw [List.foldl_cons]
    rcases List.mem_cons.mp hj with rfl | hjt
    · have h1 := scanStep_ge resolutions g j
      have h2 := scan_foldl_max_mono resolutions t (scanStep resolutions g j) (by omega)
      omega
    · exact ih _ hjt

theorem scanGroup_covers_pos (resolutions : List Int) (s e j : Int)
    (hs : s ≤ j) (he : j ≤ e) (hv : 0 < resolutions.getD j.toNat 0) :
    0 < (scanGroup resolutions s e).current_max_val_in_group :=
  scan_foldl_pos resolutions _ _ j (mem_ascend.mpr ⟨hs, he⟩) hv

/-! ## The fold over the groups -/

theorem groupStep_not_qualifies (resolutions : List Int) (best : Best) (p : Int × Int)
    (h : ¬ qualifies resolutions p) : groupStep resolutions best p = best := by
  unfold groupStep
  dsimp only
  split
  · rfl
  · rename_i hv
    split
    · rfl
    · rename_i hpos
      exact absurd ⟨hv, by omega⟩ h

theorem groupStep_qualifies (resolutions : List Int) (best : Best) (p : Int × Int)
    (h : qualifies resolutions p) :
    groupStep resolutions best p =
      if update_best best (groupEntry resolutions p).best_group_sum_score
          (groupEntry resolutions p).best_group_max_val_score
          (groupEntry resolutions p).best_original_index_of_max
      then groupEntry resolutions p else best := by
  unfold groupStep
  dsimp only
  rw [if_neg h.1, if_neg (by have := h.2; omega)]
  rfl

theorem groupStep_cases (resolutions : List Int) (best : Best) (p : Int × Int) :
    groupStep resolutions best p = best ∨
      (qualifies resolutions p ∧ groupStep resolutions best p = groupEntry resolutions p) := by
  by_cases h : qualifies resolutions p
  · rw [groupStep_qualifies resolutions best p h]
    split
    · exact Or.inr ⟨h, rfl⟩
    · exact Or.inl rfl
  · exact Or.inl (groupStep_not_qualifies resolutions best p h)

/-- The recorded index of a qualifying group is a valid index whose count is
positive. -/
theorem groupEntry_index (resolutions : List Int) (p : Int × Int)
    (h : qualifies resolutions p) :
    0 ≤ (groupEntry resolutions p).best_original_index_of_max ∧
      (groupEntry resolutions p).best_original_index_of_max < resolutions.length ∧
      p.1 ≤ (groupEntry resolutions p).best_original_index_of_max ∧
      (groupEntry resolutions p).best_original_index_of_max ≤ p.2 ∧
      0 < resolutions.getD (groupEntry resolutions p).best_original_index_of_max.toNat 0 := by
  obtain ⟨hv, hpos⟩ := h
  have h3 := scanGroup_pos resolutions p.1 p.2 hpos
  unfold validGroup at hv
  unfold groupEntry
  dsimp only
  refine ⟨by omega, by omega, h3.1, h3.2.1, ?_⟩
  rw [h3.2.2]
  exact hpos

theorem groupStep_inv (resolutions : List Int) (best : Best) (p : Int × Int)
    (hb : BestInv resolutions best) : BestInv resolutions (groupStep resolutions best p) := by
  rcases groupStep_cases resolutions best p with h | ⟨hq, h⟩
  · rw [h]
    exact hb
  · rw [h]
    have := groupEntry_index resolutions p hq
    exact Or.inr ⟨this.1, this.2.1, this.2.2.2.2⟩

theorem bestGroup_inv (resolutions : List Int) : BestInv resolutions (bestGroup resolutions) := by
  unfold bestGroup
  exact foldl_invariant (BestInv resolutions) _ _
    (fun b p _ hb => groupStep_inv resolutions b p hb) _ (Or.inl rfl)

/-- The selector returns the default, or one more than an index of the vector
that holds a positive count. -/
theorem selectResolution_cases (resolutions : List Int) :
    selectResolution resolutions = HighRange + 1 ∨
      ∃ i : Nat, i < resolutions.length ∧ 0 < resolutions.getD i 0 ∧
        (bestGroup resolutions).best_original_index_of_max = i ∧
        selectResolution resolutions = (i : Int) + 1 := by
  unfold selectResolution
  dsimp only
  split
  · exact Or.inl rfl
  · split
    · rename_i hne
      rcases bestGroup_inv resolutions with h | ⟨h0, h1, h2⟩
      · exact absurd h hne
      · right
        refine ⟨(bestGroup resolutions).best_original_index_of_max.toNat, by omega, h2,
          by omega, ?_⟩
        rw [if_neg (by omega)]
        omega
    · exact Or.inl rfl

/-! ## The entry point on valid input -/

theorem detect_valid (cv : Matcher) (img : Image) (h : validInput img) :
    detectMosaicResolution cv img =
      { result := selectResolution (resolutionsOf cv img)
        trace := (matchPatterns cv img (createPatterns img.width img.height).1
          ((createPatterns img.width img.height).2 ++ [Event.preprocessed])).2 } := by
  obtain ⟨h1, h2, h3, h4⟩ := h
  unfold detectMosaicResolution
  have hv : ¬ (img.pixelData = none ∨ img.width ≤ 0 ∨ img.height ≤ 0 ∨
      (img.channel ≠ 3 ∧ img.channel ≠ 4)) := by
    rintro (h | h | h | h)
    · exact h1 h
    · omega
    · omega
    · omega
  rw [if_neg hv, if_neg (by decide)]
  rfl

theorem resolutionsOf_shape (cv : Matcher) (img : Image) :
    (resolutionsOf cv img).length = 28 ∧
      ∀ j : Nat, j < 3 ∨ 27 ≤ j → (resolutionsOf cv img).getD j 0 = 0 :=
  matchPatterns_shape cv img _ _

/-- Nothing qualifies when no count is positive: the best-so-far variables keep
their initial values and the default is returned. -/
theorem select_no_positive (resolutions : List Int) (h : ∀ x ∈ resolutions, x ≤ 0) :
    (∀ s e : Int, (scanGroup resolutions s e).current_max_val_in_group ≤ 0) ∧
      bestGroup resolutions =
        { best_group_sum_score := -1
          best_group_max_val_score := -1
          best_original_index_of_max := -1 } ∧
      selectResolution resolutions = HighRange + 1 := by
  have hget : ∀ i : Nat, resolutions.getD i 0 ≤ 0 := by
    intro i
    rcases getD_mem_or_default resolutions i with hm | hd
    · exact h _ hm
    · omega
  have hscan : ∀ s e : Int, (scanGroup resolutions s e).current_max_val_in_group ≤ 0 := by
    intro s e
    rcases scanGroup_inv resolutions s e with ⟨h1, _⟩ | ⟨_, h3⟩
    · omega
    · rw [← h3]
      exact hget _
  have hbest : bestGroup resolutions =
      { best_group_sum_score := -1
        best_group_max_val_score := -1
        best_original_index_of_max := -1 } := by
    unfold bestGroup
    refine foldl_skip _ _ _ (fun p _ => groupStep_not_qualifies resolutions _ p ?_)
    intro hq
    have := hscan p.1 p.2
    have := hq.2
    omega
  refine ⟨hscan, hbest, ?_⟩
  unfold selectResolution
  dsimp only
  rw [hbest]
  split
  · rfl
  · rfl

/-! ## The extrema list -/

theorem foldl_push (p : Nat → Prop) [DecidablePred p] (l : List Nat) (acc : List Int) :
    l.foldl (fun (acc : List Int) (i : Nat) => if p i then acc ++ [(i : Int)] else acc) acc =
      acc ++ (l.filter (fun i => decide (p i))).map (fun (i : Nat) => (i : Int)) := by
  induction l generalizing acc with
  | nil => simp
  | cons i t ih =>
    rw [List.foldl_cons, ih]
    by_cases h : p i
    · simp [h, List.filter_cons]
    · simp [h, List.filter_cons]

/-- Membership in the list of recorded minima. -/
theorem mem_localMinima (resolutions : List Int) (x : Int) :
    x ∈ localMinima resolutions ↔
      1 ≤ x ∧ x ≤ (resolutions.length : Int) - 2 ∧
        resolutions.getD x.toNat 0 < resolutions.getD (x.toNat - 1) 0 ∧
        resolutions.getD x.toNat 0 ≤ resolutions.getD (x.toNat + 1) 0 := by
  unfold localMinima
  rw [foldl_push (fun i => resolutions.getD i 0 < resolutions.getD (i - 1) 0 ∧
    resolutions.getD i 0 ≤ resolutions.getD (i + 1) 0)]
  simp only [List.nil_append, List.mem_map, List.mem_filter, List.mem_range'_1,
    decide_eq_true_eq]
  constructor
  · rintro ⟨i, ⟨⟨h1, h2⟩, h3, h4⟩, rfl⟩
    refine ⟨by omega, by omega, ?_, ?_⟩
    · simpa using h3
    · simpa using h4
  · rintro ⟨h1, h2, h3, h4⟩
    refine ⟨x.toNat, ⟨⟨by omega, by omega⟩, h3, h4⟩, by omega⟩

theorem unique_sublist : ∀ l : List Int, (unique l).Sublist l
  | [] => List.Sublist.refl _
  | [_] => List.Sublist.refl _
  | a :: b :: t => by
    unfold unique
    split
    · exact (unique_sublist (b :: t)).cons a
    · exact (unique_sublist (b :: t)).cons₂ a

theorem mem_unique : ∀ (l : List Int) (x : Int), x ∈ unique l ↔ x ∈ l
  | [], _ => Iff.rfl
  | [_], _ => Iff.rfl
  | a :: b :: t, x => by
    unfold unique
    split
    · rename_i hab
      rw [mem_unique (b :: t) x, hab]
      simp
    · rw [List.mem_cons, mem_unique (b :: t) x, List.mem_cons (a := x) (b := a)]

theorem mem_extrema (resolutions : List Int) (x : Int) :
    x ∈ extremaMIN_indices resolutions ↔
      x = LowRange ∨ x ∈ localMinima resolutions ∨ x = HighRange + 2 := by
  unfold extremaMIN_indices
  rw [mem_unique, List.mem_insertionSort]
  simp

theorem extrema_sorted (resolutions : List Int) :
    (extremaMIN_indices resolutions).Pairwise (· ≤ ·) := by
  unfold extremaMIN_indices
  exact List.Pairwise.sublist (unique_sublist _) (List.sorted_insertionSort (· ≤ ·) _)

/-- In a sorted list every value between two members lies in an adjacent
pair. -/
theorem adjacent_cover (l : List Int) (hs : l.Pairwise (· ≤ ·)) (a b j : Int)
    (ha : a ∈ l) (hb : b ∈ l) (haj : a ≤ j) (hjb : j ≤ b) (hab : a < b) :
    ∃ p ∈ adjacentPairs l, p.1 ≤ j ∧ j ≤ p.2 ∧ p.1 ∈ l ∧ p.2 ∈ l := by
  induction l generalizing a with
  | nil => cases ha
  | cons x t ih =>
    cases t with
    | nil =>
      have h1 := List.mem_singleton.mp ha
      have h2 := List.mem_singleton.mp hb
      omega
    | cons y t =>
      have hxy : ∀ z ∈ y :: t, x ≤ z := (List.pairwise_cons.mp hs).1
      have hx : ∀ z ∈ x :: y :: t, x ≤ z := by
        intro z hz
        rcases List.mem_cons.mp hz with rfl | hz
        · exact le_refl _
        · exact hxy z hz
      by_cases hjy : j ≤ y
      · refine ⟨(x, y), ?_, ?_, hjy, List.mem_cons_self _ _,
          List.mem_cons_of_mem _ (List.mem_cons_self _ _)⟩
        · simp [adjacentPairs]
        · have := hx a ha
          show x ≤ j
          omega
      · have hyx := hxy y (List.mem_cons_self _ _)
        have hb2 : b ∈ y :: t := by
          rcases List.mem_cons.mp hb with rfl | hb
          · omega
          · exact hb
        obtain ⟨p, hp, hp1, hp2, hp3, hp4⟩ :=
          ih (List.pairwise_cons.mp hs).2 y (List.mem_cons_self _ _) hb2 (by omega)
            (by omega)
        refine ⟨p, ?_, hp1, hp2, List.mem_cons_of_mem _ hp3, List.mem_cons_of_mem _ hp4⟩
        simp only [adjacentPairs, List.tail_cons, List.zip_cons_cons] at hp ⊢
        exact List.mem_cons_of_mem _ hp

/-- On a vector of the source's length every extremum is a valid index. -/
theorem extrema_bounds (resolutions : List Int) (hlen : resolutions.length = 28)
    (x : Int) (hx : x ∈ extremaMIN_indices resolutions) : 1 ≤ x ∧ x ≤ 27 := by
  rcases (mem_extrema resolutions x).mp hx with h | h | h
  · simp only [LowRange] at h
    omega
  · have := (mem_localMinima resolutions x).mp h
    omega
  · simp only [HighRange] at h
    omega

/-- Every index of `[LowRange, HighRange + 2]` with a positive count lies in a
group that qualifies. -/
theorem exists_qualifying (resolutions : List Int) (hlen : resolutions.length = 28)
    (j : Int) (h2 : 2 ≤ j) (h27 : j ≤ 27) (hpos : 0 < resolutions.getD j.toNat 0) :
    ∃ p ∈ adjacentPairs (extremaMIN_indices resolutions), qualifies resolutions p := by
  obtain ⟨p, hp, hp1, hp2, hp3, hp4⟩ :=
    adjacent_cover (extremaMIN_indices resolutions) (extrema_sorted resolutions) 2 27 j
      ((mem_extrema resolutions 2).mpr (Or.inl rfl))
      ((mem_extrema resolutions 27).mpr (Or.inr (Or.inr rfl))) h2 h27 (by decide)
  have b1 := extrema_bounds resolutions hlen p.1 hp3
  have b2 := extrema_bounds resolutions hlen p.2 hp4
  refine ⟨p, hp, ?_, scanGroup_covers_pos resolutions p.1 p.2 j hp1 hp2 hpos⟩
  unfold validGroup
  omega

/-! ## Optimality of the fold -/

theorem update_best_first (best : Best) (cs cm ci : Int)
    (h : best.best_original_index_of_max = -1) : update_best best cs cm ci = true := by
  unfold update_best
  rw [if_pos h]

theorem update_best_iff (best : Best) (cs cm ci : Int)
    (h : best.best_original_index_of_max ≠ -1) :
    update_best best cs cm ci = true ↔
      (best.best_group_sum_score < cs ∨
        (cs = best.best_group_sum_score ∧
          (best.best_group_max_val_score < cm ∨
            (cm = best.best_group_max_val_score ∧ ci < best.best_original_index_of_max)))) := by
  unfold update_best
  rw [if_neg h]
  split_ifs with h1 h2 h3 h4
  · simp only [true_iff]
    omega
  · simp only [true_iff]
    omega
  · simp only [decide_eq_true_eq]
    omega
  · simp only [Bool.false_eq_true, false_iff]
    omega
  · simp only [Bool.false_eq_true, false_iff]
    omega

/-- The fold over any list of groups ends on the initial values when no group
qualifies, and otherwise on the entry of a qualifying group that no qualifying
group beats. -/
theorem fold_optimal (resolutions : List Int) (ps : List (Int × Int)) :
    ((∀ p ∈ ps, ¬ qualifies resolutions p) ∧
        ps.foldl (groupStep resolutions) initialBest = initialBest) ∨
      ∃ p ∈ ps, qualifies resolutions p ∧
        ps.foldl (groupStep resolutions) initialBest = groupEntry resolutions p ∧
        ∀ q ∈ ps, qualifies resolutions q →
          noWorse (groupEntry resolutions p) (groupEntry resolutions q) := by
  induction ps using List.reverseRecOn with
  | nil => exact Or.inl ⟨fun p hp => absurd hp (List.not_mem_nil p), rfl⟩
  | append_singleton l p ih =>
    rw [List.foldl_append, List.foldl_cons, List.foldl_nil]
    by_cases hq : qualifies resolutions p
    · rw [groupStep_qualifies resolutions _ p hq]
      rcases ih with ⟨hnone, hinit⟩ | ⟨p0, hp0, hq0, hfin, hbest⟩
      · right
        rw [hinit, update_best_first initialBest _ _ _ rfl, if_pos rfl]
        refine ⟨p, by simp, hq, rfl, ?_⟩
        intro q hmem hqq
        rcases List.mem_append.mp hmem with hl | hl
        · exact absurd hqq (hnone q hl)
        · rw [List.mem_singleton.mp hl]
          unfold noWorse
          omega
      · right
        rw [hfin]
        have hidx := (groupEntry_index resolutions p0 hq0).1
        have hiff := update_best_iff (groupEntry resolutions p0)
          (groupEntry resolutions p).best_group_sum_score
          (groupEntry resolutions p).best_group_max_val_score
          (groupEntry resolutions p).best_original_index_of_max (by omega)
        by_cases hu : update_best (groupEntry resolutions p0)
            (groupEntry resolutions p).best_group_sum_score
            (groupEntry resolutions p).best_group_max_val_score
            (groupEntry resolutions p).best_original_index_of_max = true
        · rw [if_pos hu]
          have hlt := hiff.mp hu
          refine ⟨p, by simp, hq, rfl, ?_⟩
          intro q hmem hqq
          rcases List.mem_append.mp hmem with hl | hl
          · have := hbest q hl hqq
            unfold noWorse at this ⊢
            omega
          · rw [List.mem_singleton.mp hl]
            unfold noWorse
            omega
        · rw [if_neg hu]
          have hnlt := mt hiff.mpr hu
          refine ⟨p0, List.mem_append_left _ hp0, hq0, rfl, ?_⟩
          intro q hmem hqq
          rcases List.mem_append.mp hmem with hl | hl
          · exact hbest q hl hqq
          · rw [List.mem_singleton.mp hl]
            unfold noWorse
            omega
    · rw [groupStep_not_qualifies resolutions _ p hq]
      rcases ih with ⟨hnone, hinit⟩ | ⟨p0, hp0, hq0, hfin, hbest⟩
      · left
        refine ⟨?_, hinit⟩
        intro q hmem
        rcases List.mem_append.mp hmem with hl | hl
        · exact hnone q hl
        · rw [List.mem_singleton.mp hl]
          exact hq
      · right
        refine ⟨p0, List.mem_append_left _ hp0, hq0, hfin, ?_⟩
        intro q hmem hqq
        rcases List.mem_append.mp hmem with hl | hl
        · exact hbest q hl hqq
        · rw [List.mem_singleton.mp hl] at hqq
          exact absurd hqq hq

theorem adjacentPairs_length {l : List Int} {p : Int × Int} (h : p ∈ adjacentPairs l) :
    ¬ l.length < 2 := by
  cases l with
  | nil => simp [adjacentPairs] at h
  | cons x t =>
    cases t with
    | nil => simp [adjacentPairs] at h
    | cons y t =>
      simp only [List.length_cons]
      omega

/-- When a group qualifies the selector returns one more than the recorded index
of a qualifying group that no qualifying group beats. -/
theorem select_eq_best (resolutions : List Int)
    (h : ∃ p ∈ adjacentPairs (extremaMIN_indices resolutions), qualifies resolutions p) :
    ∃ p ∈ adjacentPairs (extremaMIN_indices resolutions), qualifies resolutions p ∧
      bestGroup resolutions = groupEntry resolutions p ∧
      selectResolution resolutions = (groupEntry resolutions p).best_original_index_of_max + 1 ∧
      ∀ q ∈ adjacentPairs (extremaMIN_indices resolutions), qualifies resolutions q →
        noWorse (groupEntry resolutions p) (groupEntry resolutions q) := by
  obtain ⟨p1, hp1, hq1⟩ := h
  rcases fold_optimal resolutions (adjacentPairs (extremaMIN_indices resolutions)) with
    ⟨hnone, _⟩ | ⟨p, hp, hq, hfin, hbest⟩
  · exact absurd hq1 (hnone p1 hp1)
  · have hb : bestGroup resolutions = groupEntry resolutions p := hfin
    refine ⟨p, hp, hq, hb, ?_, hbest⟩
    have hidx := (groupEntry_index resolutions p hq).1
    unfold selectResolution
    dsimp only
    rw [if_neg (adjacentPairs_length hp), hb, if_pos (by omega), if_neg (by omega)]

/-- When no group qualifies the selector returns the default. -/
theorem select_none_qualifies (resolutions : List Int)
    (h : ∀ p ∈ adjacentPairs (extremaMIN_indices resolutions), ¬ qualifies resolutions p) :
    selectResolution resolutions = HighRange + 1 := by
  have hb : bestGroup resolutions = initialBest :=
    foldl_skip _ _ _ (fun p hp => groupStep_not_qualifies resolutions _ p (h p hp))
  unfold selectResolution
  dsimp only
  rw [hb]
  split
  · rfl
  · rfl

theorem getD_set_replicate (n k i : Nat) (c : Int) :
    ((List.replicate n (0 : Int)).set k c).getD i 0 = if i = k ∧ k < n then c else 0 := by
  rw [List.getD_eq_getElem?_getD, List.getElem?_set]
  by_cases hk : k = i
  · subst hk
    by_cases hn : k < n
    · simp [hn]
    · simp [hn]
  · rw [if_neg hk, if_neg (by omega), ← List.getD_eq_getElem?_getD]
    rcases getD_mem_or_default (List.replicate n (0 : Int)) i with h | h
    · exact List.eq_of_mem_replicate h
    · exact h

/-! ## The grid pattern -/

theorem lineOffsets_three (m : Int) (hm : 4 ≤ m) (n : Nat) :
    lineOffsets (2 + m + m - 1 + 2) (m - 1) (n + 4) 2 = [2, m + 1, 2 * m] := by
  have e1 : (2 : Int) + (m - 1) = m + 1 := by omega
  have e2 : m + 1 + (m - 1) = 2 * m := by omega
  rw [lineOffsets, if_pos (by omega), e1, lineOffsets, if_pos (by omega), e2,
    lineOffsets, if_pos (by omega), lineOffsets, if_neg (by omega)]

/-- From `masksize = 4` on, the canvas has side `2 * masksize + 3` and three
lines in each direction. -/
theorem makePattern_eq (m : Int) (hm : 4 ≤ m) :
    makePattern m =
      { rows := 2 * m + 3
        cols := 2 * m + 3
        vlines := [2, m + 1, 2 * m]
        hlines := [2, m + 1, 2 * m] } := by
  obtain ⟨n, hn⟩ : ∃ n : Nat, (2 + m + m - 1 + 2).toNat = n + 4 :=
    ⟨(2 + m + m - 1 + 2).toNat - 4, by omega⟩
  have hside : 2 + m + m - 1 + 2 = 2 * m + 3 := by omega
  unfold makePattern
  dsimp only
  rw [hn, lineOffsets_three m hm n, hside]

/-! ## Order of the extrema list -/

theorem unique_strict : ∀ l : List Int, l.Pairwise (· ≤ ·) → (unique l).Pairwise (· < ·)
  | [], _ => List.Pairwise.nil
  | [_], _ => List.pairwise_singleton _ _
  | a :: b :: t, h => by
    have hab : ∀ z ∈ b :: t, a ≤ z := (List.pairwise_cons.mp h).1
    have htail : (b :: t).Pairwise (· ≤ ·) := (List.pairwise_cons.mp h).2
    have hb : ∀ z ∈ b :: t, b ≤ z := by
      intro z hz
      rcases List.mem_cons.mp hz with rfl | hz
      · exact le_refl _
      · exact (List.pairwise_cons.mp htail).1 z hz
    unfold unique
    split
    · exact unique_strict (b :: t) htail
    · rename_i hne
      refine List.pairwise_cons.mpr ⟨?_, unique_strict (b :: t) htail⟩
      intro z hz
      have hz2 := (mem_unique (b :: t) z).mp hz
      have h1 := hab b (List.mem_cons_self _ _)
      have h2 := hb z hz2
      omega

theorem unique_eq_self : ∀ l : List Int, l.Pairwise (· < ·) → unique l = l
  | [], _ => rfl
  | [_], _ => rfl
  | a :: b :: t, h => by
    have hab : a < b := (List.pairwise_cons.mp h).1 b (List.mem_cons_self _ _)
    unfold unique
    rw [if_neg (by omega), unique_eq_self (b :: t) (List.pairwise_cons.mp h).2]

theorem extrema_strict (resolutions : List Int) :
    (extremaMIN_indices resolutions).Pairwise (· < ·) := by
  unfold extremaMIN_indices
  exact unique_strict _ (List.sorted_insertionSort (· ≤ ·) _)

/-- Adjacent pairs of a strictly increasing list are increasing pairs of
members. -/
theorem adjacentPairs_strict : ∀ (l : List Int), l.Pairwise (· < ·) →
    ∀ p ∈ adjacentPairs l, p.1 < p.2 ∧ p.1 ∈ l ∧ p.2 ∈ l
  | [], _, p, hp => by simp [adjacentPairs] at hp
  | [_], _, p, hp => by simp [adjacentPairs] at hp
  | x :: y :: t, h, p, hp => by
    simp only [adjacentPairs, List.tail_cons, List.zip_cons_cons, List.mem_cons] at hp
    rcases hp with rfl | hp
    · exact ⟨(List.pairwise_cons.mp h).1 y (List.mem_cons_self _ _),
        List.mem_cons_self _ _, List.mem_cons_of_mem _ (List.mem_cons_self _ _)⟩
    · have := adjacentPairs_strict (y :: t) (List.pairwise_cons.mp h).2 p
        (by simpa [adjacentPairs] using hp)
      exact ⟨this.1, List.mem_cons_of_mem _ this.2.1, List.mem_cons_of_mem _ this.2.2⟩

theorem length_of_two_members {l : List Int} {a b : Int} (ha : a ∈ l) (hb : b ∈ l)
    (hab : a ≠ b) : ¬ l.length < 2 := by
  cases l with
  | nil => cases ha
  | cons x t =>
    cases t with
    | nil =>
      have h1 := List.mem_singleton.mp ha
      have h2 := List.mem_singleton.mp hb
      omega
    | cons y t =>
      simp only [List.length_cons]
      omega

theorem extrema_length (resolutions : List Int) :
    ¬ (extremaMIN_indices resolutions).length < 2 :=
  length_of_two_members ((mem_extrema resolutions 2).mpr (Or.inl rfl))
    ((mem_extrema resolutions 27).mpr (Or.inr (Or.inr rfl))) (by decide)

theorem localMinima_eq (resolutions : List Int) :
    localMinima resolutions =
      ((List.range' 1 (resolutions.length - 2)).filter
        (fun i => decide (resolutions.getD i 0 < resolutions.getD (i - 1) 0 ∧
          resolutions.getD i 0 ≤ resolutions.getD (i + 1) 0))).map
        (fun (i : Nat) => (i : Int)) := by
  unfold localMinima
  rw [foldl_push (fun i => resolutions.getD i 0 < resolutions.getD (i - 1) 0 ∧
    resolutions.getD i 0 ≤ resolutions.getD (i + 1) 0)]
  rfl

theorem localMinima_strict (resolutions : List Int) :
    (localMinima resolutions).Pairwise (· < ·) := by
  rw [localMinima_eq]
  refine List.Pairwise.map _ ?_ (List.Pairwise.filter _ (List.pairwise_lt_range' 1 _))
  intro a b hab
  exact Int.ofNat_lt.mpr hab

/-- On an array of the matcher's shape the extrema list is the list of pushes
itself: it is already strictly increasing. -/
theorem extrema_eq (resolutions : List Int) (hlen : resolutions.length = 28)
    (h3 : 0 ≤ resolutions.getD 3 0)
    (hzero : ∀ j : Nat, j < 3 → resolutions.getD j 0 = 0) :
    (∀ x ∈ localMinima resolutions, 4 ≤ x ∧ x ≤ 26) ∧
      extremaMIN_indices resolutions = [2] ++ localMinima resolutions ++ [27] := by
  have hmin : ∀ x ∈ localMinima resolutions, 4 ≤ x ∧ x ≤ 26 := by
    intro x hx
    obtain ⟨h1, h2, h3', h4⟩ := (mem_localMinima resolutions x).mp hx
    refine ⟨?_, by omega⟩
    by_contra hlt
    obtain ⟨k, hk⟩ : ∃ k : Nat, x = (k : Int) := ⟨x.toNat, by omega⟩
    subst hk
    rw [Int.toNat_ofNat] at h3'
    have hk3 : k = 1 ∨ k = 2 ∨ k = 3 := by omega
    rcases hk3 with rfl | rfl | rfl
    · have a := hzero 1 (by omega)
      have b := hzero 0 (by omega)
      simp only [Nat.sub_self] at h3'
      omega
    · have a := hzero 2 (by omega)
      have b := hzero 1 (by omega)
      have e : (2 : Nat) - 1 = 1 := rfl
      rw [e] at h3'
      omega
    · have b := hzero 2 (by omega)
      have e : (3 : Nat) - 1 = 2 := rfl
      rw [e] at h3'
      omega
  refine ⟨hmin, ?_⟩
  have hsorted : ([LowRange] ++ localMinima resolutions ++ [HighRange + 2]).Pairwise
      (· < ·) := by
    simp only [LowRange, HighRange]
    refine List.pairwise_append.mpr ⟨List.pairwise_append.mpr
      ⟨List.pairwise_singleton _ _, localMinima_strict resolutions, ?_⟩,
      List.pairwise_singleton _ _, ?_⟩
    · intro a ha b hb
      have := hmin b hb
      have := List.mem_singleton.mp ha
      omega
    · intro a ha b hb
      have hb' := List.mem_singleton.mp hb
      rcases List.mem_append.mp ha with h | h
      · have := List.mem_singleton.mp h
        omega
      · have := hmin a h
        omega
  unfold extremaMIN_indices
  rw [List.Sorted.insertionSort_eq (List.Pairwise.imp (fun h => le_of_lt h) hsorted),
    unique_eq_self _ hsorted]
  rfl

/-! ## The third tie-break test -/

theorem ascend_cons (s e : Int) (h : s ≤ e) : ascend s e = s :: ascend (s + 1) e := by
  obtain ⟨n, hn⟩ : ∃ n : Nat, (n : Int) = e - s := ⟨(e - s).toNat, by omega⟩
  have h1 : (e - s + 1).toNat = n + 1 := by omega
  have h2 : (e - (s + 1) + 1).toNat = n := by omega
  unfold ascend
  rw [h1, h2, List.range_succ_eq_map, List.map_cons, List.map_map]
  refine congrArg₂ List.cons (by simp) (List.map_congr_left ?_)
  intro k _
  simp only [Function.comp_apply, Nat.succ_eq_add_one, Nat.cast_add, Nat.cast_one]
  omega

/-- A scan of a non-empty range records an index of the range. -/
theorem scanGroup_index_range (resolutions : List Int) (s e : Int) (h : s ≤ e) :
    s ≤ (scanGroup resolutions s e).current_original_index_of_max_in_group ∧
      (scanGroup resolutions s e).current_original_index_of_max_in_group ≤ e := by
  unfold scanGroup
  rw [ascend_cons s e h, List.foldl_cons]
  refine foldl_invariant
    (fun g : GroupScan => s ≤ g.current_original_index_of_max_in_group ∧
      g.current_original_index_of_max_in_group ≤ e) _ _ ?_ _ ?_
  · intro g i hi hg
    have hi2 := mem_ascend.mp hi
    unfold scanStep
    dsimp only
    split
    · dsimp only
      omega
    · exact hg
  · unfold scanStep
    dsimp only
    rw [if_pos (Or.inl rfl)]
    dsimp only
    omega

/-- The groups follow one another: a group ends where no later group has
started yet. -/
theorem adjacentPairs_ordered : ∀ (l : List Int), l.Pairwise (· ≤ ·) →
    (adjacentPairs l).Pairwise (fun p q => p.2 ≤ q.1)
  | [], _ => by simp [adjacentPairs]
  | [_], _ => by simp [adjacentPairs]
  | x :: y :: t, h => by
    have htail : (y :: t).Pairwise (· ≤ ·) := (List.pairwise_cons.mp h).2
    have hy : ∀ z ∈ y :: t, y ≤ z := by
      intro z hz
      rcases List.mem_cons.mp hz with rfl | hz
      · exact le_refl _
      · exact (List.pairwise_cons.mp htail).1 z hz
    have ih := adjacentPairs_ordered (y :: t) htail
    simp only [adjacentPairs, List.tail_cons, List.zip_cons_cons] at ih ⊢
    refine List.pairwise_cons.mpr ⟨?_, ih⟩
    intro q hq
    obtain ⟨q1, q2⟩ := q
    exact hy q1 (List.of_mem_zip hq).1

theorem groupStepKeepEarlier_not_qualifies (resolutions : List Int) (best : Best)
    (p : Int × Int) (h : ¬ qualifies resolutions p) :
    groupStepKeepEarlier resolutions best p = best := by
  unfold groupStepKeepEarlier
  dsimp only
  split
  · rfl
  · rename_i hv
    split
    · rfl
    · rename_i hpos
      exact absurd ⟨hv, by omega⟩ h

theorem groupStepKeepEarlier_qualifies (resolutions : List Int) (best : Best)
    (p : Int × Int) (h : qualifies resolutions p) :
    groupStepKeepEarlier resolutions best p =
      if update_best_keep_earlier best (groupEntry resolutions p).best_group_sum_score
          (groupEntry resolutions p).best_group_max_val_score
      then groupEntry resolutions p else best := by
  unfold groupStepKeepEarlier
  dsimp only
  rw [if_neg h.1, if_neg (by have := h.2; omega)]
  rfl

/-- When the current index is not below the best index the third test changes
nothing. -/
theorem update_best_keep_earlier_eq (best : Best) (cs cm ci : Int)
    (h : best.best_original_index_of_max = -1 ∨ best.best_original_index_of_max ≤ ci) :
    update_best best cs cm ci = update_best_keep_earlier best cs cm := by
  unfold update_best update_best_keep_earlier
  split_ifs with h1 h2 h3 h4 h5
  · rfl
  · rfl
  · rfl
  · rw [decide_eq_false_iff_not]
    omega
  · rfl
  · rfl

theorem groupStep_eq_keepEarlier (resolutions : List Int) (best : Best) (p : Int × Int)
    (h : best.best_original_index_of_max = -1 ∨ best.best_original_index_of_max ≤ p.1) :
    groupStep resolutions best p = groupStepKeepEarlier resolutions best p := by
  by_cases hq : qualifies resolutions p
  · rw [groupStep_qualifies resolutions best p hq,
      groupStepKeepEarlier_qualifies resolutions best p hq,
      update_best_keep_earlier_eq]
    have := (groupEntry_index resolutions p hq).2.2.1
    omega
  · rw [groupStep_not_qualifies resolutions best p hq,
      groupStepKeepEarlier_not_qualifies resolutions best p hq]

theorem fold_eq_keepEarlier (resolutions : List Int) :
    ∀ (ps : List (Int × Int)) (best : Best), ps.Pairwise (fun p q => p.2 ≤ q.1) →
      (best.best_original_index_of_max = -1 ∨
        ∀ p ∈ ps, best.best_original_index_of_max ≤ p.1) →
      ps.foldl (groupStep resolutions) best =
        ps.foldl (groupStepKeepEarlier resolutions) best
  | [], _, _, _ => rfl
  | p :: t, best, hpw, hb => by
    have hstep : groupStep resolutions best p = groupStepKeepEarlier resolutions best p := by
      apply groupStep_eq_keepEarlier
      rcases hb with h | h
      · exact Or.inl h
      · exact Or.inr (h p (List.mem_cons_self _ _))
    rw [List.foldl_cons, List.foldl_cons, ← hstep]
    apply fold_eq_keepEarlier resolutions t _ (List.pairwise_cons.mp hpw).2
    rcases groupStep_cases resolutions best p with h | ⟨hq, h⟩
    · rw [h]
      rcases hb with hb | hb
      · exact Or.inl hb
      · exact Or.inr (fun q hq => hb q (List.mem_cons_of_mem _ hq))
    · rw [h]
      right
      intro q hq1
      have h1 := (groupEntry_index resolutions p hq).2.2.2.1
      have h2 := (List.pairwise_cons.mp hpw).1 q hq1
      omega

theorem bestGroup_eq_keepEarlier (resolutions : List Int) :
    bestGroupKeepEarlier resolutions = bestGroup resolutions := by
  unfold bestGroupKeepEarlier bestGroup
  exact (fold_eq_keepEarlier resolutions _ _
    (adjacentPairs_ordered _ (extrema_sorted resolutions)) (Or.inl rfl)).symm

/-! ## What the scan of one group computes -/

theorem ascend_snoc (s : Int) (n : Nat) :
    ascend s (s + n + 1) = ascend s (s + n) ++ [s + n + 1] := by
  have h1 : (s + n + 1 - s + 1).toNat = n + 1 + 1 := by omega
  have h2 : (s + n - s + 1).toNat = n + 1 := by omega
  unfold ascend
  rw [h1, h2, List.range_succ (n + 1), List.map_append, List.map_singleton]
  refine congrArg₂ _ rfl (congrArg₂ _ ?_ rfl)
  push_cast
  omega

theorem ascend_single (s : Int) : ascend s s = [s] := by
  have h1 : (s - s + 1).toNat = 1 := by omega
  unfold ascend
  rw [h1]
  show [s + ((0 : Nat) : Int)] = [s]
  rw [Int.ofNat_zero, Int.add_zero]

theorem scanGroup_snoc (resolutions : List Int) (s : Int) (n : Nat) :
    scanGroup resolutions s (s + n + 1) =
      scanStep resolutions (scanGroup resolutions s (s + n)) (s + n + 1) := by
  unfold scanGroup
  rw [ascend_snoc, List.foldl_append, List.foldl_cons, List.foldl_nil]

theorem groupTotal_snoc (resolutions : List Int) (s : Int) (n : Nat) :
    groupTotal resolutions s (s + n + 1) =
      groupTotal resolutions s (s + n) + resolutions.getD (s + n + 1).toNat 0 := by
  unfold groupTotal
  rw [ascend_snoc, List.map_append, List.sum_append, List.map_singleton, List.sum_singleton]

/-- On non-negative counts the scan of `[s, s + n]` records the first index of
the maximum, the maximum, and the total as long as the total fits an `int`. -/
theorem scan_spec (resolutions : List Int) (hnn : ∀ i : Nat, 0 ≤ resolutions.getD i 0)
    (s : Int) : ∀ n : Nat,
    (s ≤ (scanGroup resolutions s (s + n)).current_original_index_of_max_in_group ∧
      (scanGroup resolutions s (s + n)).current_original_index_of_max_in_group ≤ s + n) ∧
    (scanGroup resolutions s (s + n)).current_max_val_in_group =
      resolutions.getD
        (scanGroup resolutions s (s + n)).current_original_index_of_max_in_group.toNat 0 ∧
    (∀ i : Int, s ≤ i → i ≤ s + n →
      resolutions.getD i.toNat 0 ≤ (scanGroup resolutions s (s + n)).current_max_val_in_group) ∧
    (∀ i : Int, s ≤ i →
      i < (scanGroup resolutions s (s + n)).current_original_index_of_max_in_group →
      resolutions.getD i.toNat 0 < (scanGroup resolutions s (s + n)).current_max_val_in_group) ∧
    0 ≤ groupTotal resolutions s (s + n) ∧
    (groupTotal resolutions s (s + n) < 2147483648 →
      (scanGroup resolutions s (s + n)).current_group_sum =
        groupTotal resolutions s (s + n))
  | 0 => by
    have hv := hnn s.toNat
    have e0 : s + ((0 : Nat) : Int) = s := by simp
    rw [e0]
    have hg : scanGroup resolutions s s =
        { current_group_sum := wrapInt (0 + resolutions.getD s.toNat 0)
          current_max_val_in_group := resolutions.getD s.toNat 0
          current_original_index_of_max_in_group := s } := by
      unfold scanGroup
      rw [ascend_single, List.foldl_cons, List.foldl_nil]
      unfold scanStep
      dsimp only
      rw [if_pos (Or.inl rfl)]
    have ht : groupTotal resolutions s s = resolutions.getD s.toNat 0 := by
      unfold groupTotal
      rw [ascend_single]
      simp
    rw [hg, ht]
    dsimp only
    refine ⟨⟨le_refl _, le_refl _⟩, rfl, ?_, ?_, hv, ?_⟩
    · intro i h1 h2
      have : i = s := by omega
      rw [this]
    · intro i h1 h2
      omega
    · intro hfit
      rw [wrapInt_of_range _ (by omega) (by omega)]
      omega
  | n + 1 => by
    obtain ⟨⟨i1, i2⟩, hmax, hall, hfirst, htot0, hsum⟩ := scan_spec resolutions hnn s n
    have hv := hnn (s + n + 1).toNat
    have e1 : s + ((n + 1 : Nat) : Int) = s + n + 1 := by push_cast; omega
    rw [e1, scanGroup_snoc, groupTotal_snoc]
    generalize scanGroup resolutions s (s + n) = g at i1 i2 hmax hall hfirst hsum ⊢
    generalize groupTotal resolutions s (s + n) = T at htot0 hsum ⊢
    have hmax0 : 0 ≤ g.current_max_val_in_group := by
      rw [hmax]
      exact hnn _
    unfold scanStep
    dsimp only
    have hsum' : T + resolutions.getD (s + n + 1).toNat 0 < 2147483648 →
        wrapInt (g.current_group_sum + resolutions.getD (s + n + 1).toNat 0) =
          T + resolutions.getD (s + n + 1).toNat 0 := by
      intro hfit
      rw [hsum (by omega), wrapInt_of_range _ (by omega) hfit]
    split
    · rename_i hc
      have hgt : resolutions.getD (s + n + 1).toNat 0 > g.current_max_val_in_group := by
        rcases hc with hc | hc
        · omega
        · exact hc
      dsimp only
      refine ⟨⟨by omega, le_refl _⟩, rfl, ?_, ?_, by omega, hsum'⟩
      · intro i h1 h2
        by_cases hi : i = s + n + 1
        · rw [hi]
        · have := hall i h1 (by omega)
          omega
      · intro i h1 h2
        have := hall i h1 (by omega)
        omega
    · rename_i hc
      dsimp only
      refine ⟨⟨i1, by omega⟩, hmax, ?_, hfirst, by omega, hsum'⟩
      intro i h1 h2
      by_cases hi : i = s + n + 1
      · rw [hi]
        omega
      · exact hall i h1 (by omega)

theorem getD_nonneg (resolutions : List Int) (hnn : ∀ x ∈ resolutions, 0 ≤ x) (i : Nat) :
    0 ≤ resolutions.getD i 0 := by
  rcases getD_mem_or_default resolutions i with h | h
  · exact hnn _ h
  · omega

/-- The maximum of a group is at most its total when no count is negative. -/
theorem entry_le_groupTotal (resolutions : List Int) (hnn : ∀ x ∈ resolutions, 0 ≤ x)
    (s e i : Int) (hs : s ≤ i) (he : i ≤ e) :
    resolutions.getD i.toNat 0 ≤ groupTotal resolutions s e := by
  unfold groupTotal
  apply List.single_le_sum
  · intro x hx
    obtain ⟨j, _, rfl⟩ := List.mem_map.mp hx
    exact getD_nonneg resolutions hnn _
  · exact List.mem_map.mpr ⟨i, mem_ascend.mpr ⟨hs, he⟩, rfl⟩

/-! ## The percentage bonuses -/

/-- Two loops over the same list whose bodies preserve a relation end in related
states. -/
theorem foldl_rel {σ τ α : Type} (R : σ → τ → Prop) (f : σ → α → σ) (g : τ → α → τ)
    (l : List α) (hstep : ∀ a b, ∀ x ∈ l, R a b → R (f a x) (g b x)) :
    ∀ a b, R a b → R (l.foldl f a) (l.foldl g b) := by
  induction l with
  | nil => exact fun a b h => h
  | cons x t ih =>
    intro a b h
    rw [List.foldl_cons, List.foldl_cons]
    exact ih (fun a b y hy => hstep a b y (List.mem_cons_of_mem x hy)) _ _
      (hstep a b x (List.mem_cons_self x t) h)

theorem groupStepRaw_not_qualifies (resolutions : List Int) (best : Best)
    (p : Int × Int) (h : ¬ qualifies resolutions p) :
    groupStepRaw resolutions best p = best := by
  unfold groupStepRaw
  dsimp only
  split
  · rfl
  · rename_i hv
    split
    · rfl
    · rename_i hpos
      exact absurd ⟨hv, by omega⟩ h

theorem groupStepRaw_qualifies (resolutions : List Int) (best : Best)
    (p : Int × Int) (h : qualifies resolutions p) :
    groupStepRaw resolutions best p =
      if update_best best (rawEntry resolutions p).best_group_sum_score
          (rawEntry resolutions p).best_group_max_val_score
          (rawEntry resolutions p).best_original_index_of_max
      then rawEntry resolutions p else best := by
  unfold groupStepRaw
  dsimp only
  rw [if_neg h.1, if_neg (by have := h.2; omega)]
  rfl

/-- The scores of a qualifying group are its raw values with their bonus, as
long as the total of the group with the larger bonus fits an `int`. -/
theorem groupEntry_scores (resolutions : List Int) (hnn : ∀ x ∈ resolutions, 0 ≤ x)
    (p : Int × Int) (hq : qualifies resolutions p)
    (hfit : groupTotal resolutions p.1 p.2 + 3 * groupTotal resolutions p.1 p.2 / 20 <
      2147483648) :
    0 ≤ (rawEntry resolutions p).best_group_sum_score ∧
      0 ≤ (rawEntry resolutions p).best_group_max_val_score ∧
      (groupEntry resolutions p).best_group_sum_score =
        (rawEntry resolutions p).best_group_sum_score +
          (rawEntry resolutions p).best_group_sum_score / 20 ∧
      (groupEntry resolutions p).best_group_max_val_score =
        (rawEntry resolutions p).best_group_max_val_score +
          3 * (rawEntry resolutions p).best_group_max_val_score / 20 := by
  obtain ⟨hv, hpos⟩ := hq
  unfold validGroup at hv
  obtain ⟨n, hn⟩ : ∃ n : Nat, p.2 = p.1 + (n : Int) := ⟨(p.2 - p.1).toNat, by omega⟩
  obtain ⟨hidx, hmax, _, _, htot0, hsum⟩ :=
    scan_spec resolutions (getD_nonneg resolutions hnn) p.1 n
  rw [← hn] at hidx hmax htot0 hsum
  have hle := entry_le_groupTotal resolutions hnn p.1 p.2 _ hidx.1 hidx.2
  rw [← hmax] at hle
  have hs := hsum (by omega)
  unfold groupEntry rawEntry
  dsimp only
  rw [hs]
  refine ⟨htot0, by omega, sumScore_eq _ htot0 (by omega), maxScore_eq _ (by omega) (by omega)⟩

theorem update_best_scores (b r : Best) (S M i : Int) (hrel : ScoreRel b r) :
    update_best b (S + S / 20) (M + 3 * M / 20) i = update_best r S M i := by
  obtain ⟨hidx, hsc⟩ := hrel
  by_cases h1 : b.best_original_index_of_max = -1
  · rw [update_best_first b _ _ _ h1, update_best_first r _ _ _ (by omega)]
  · obtain ⟨h2, h3, h4, h5⟩ := hsc h1
    rw [Bool.eq_iff_iff, update_best_iff b _ _ _ h1, update_best_iff r _ _ _ (by omega)]
    constructor
    · intro h
      omega
    · intro h
      omega

theorem groupStep_scoreRel (resolutions : List Int) (hnn : ∀ x ∈ resolutions, 0 ≤ x)
    (p : Int × Int)
    (hfit : groupTotal resolutions p.1 p.2 + 3 * groupTotal resolutions p.1 p.2 / 20 <
      2147483648)
    (b r : Best) (hrel : ScoreRel b r) :
    ScoreRel (groupStep resolutions b p) (groupStepRaw resolutions r p) := by
  by_cases hq : qualifies resolutions p
  · obtain ⟨h1, h2, h3, h4⟩ := groupEntry_scores resolutions hnn p hq hfit
    rw [groupStep_qualifies resolutions b p hq, groupStepRaw_qualifies resolutions r p hq,
      h3, h4, update_best_scores b r _ _ _ hrel]
    have e : (groupEntry resolutions p).best_original_index_of_max =
        (rawEntry resolutions p).best_original_index_of_max := rfl
    rw [e]
    split
    · exact ⟨e, fun _ => ⟨h1, h2, h3, h4⟩⟩
    · exact hrel
  · rw [groupStep_not_qualifies resolutions b p hq,
      groupStepRaw_not_qualifies resolutions r p hq]
    exact hrel

theorem bestGroup_scoreRel (resolutions : List Int) (hnn : ∀ x ∈ resolutions, 0 ≤ x)
    (hfit : ∀ p ∈ adjacentPairs (extremaMIN_indices resolutions),
      groupTotal resolutions p.1 p.2 + 3 * groupTotal resolutions p.1 p.2 / 20 <
        2147483648) :
    ScoreRel (bestGroup resolutions) (bestGroupRaw resolutions) := by
  unfold bestGroup bestGroupRaw
  refine foldl_rel ScoreRel _ _ _ ?_ _ _ ⟨rfl, fun h => absurd rfl h⟩
  intro b r p hp hrel
  exact groupStep_scoreRel resolutions hnn p (hfit p hp) b r hrel

/-! ## Contents of the patterns and resolutions vectors -/

theorem getD_set_self {α : Type} (l : List α) (i : Nat) (a d : α) (h : i < l.length) :
    (l.set i a).getD i d = a := by
  rw [List.getD_eq_getElem?_getD, List.getElem?_set_self h]
  rfl

theorem getD_set_other {α : Type} (l : List α) (i j : Nat) (a d : α) (h : i ≠ j) :
    (l.set i a).getD j d = l.getD j d := by
  rw [List.getD_eq_getElem?_getD, List.getElem?_set_ne h, ← List.getD_eq_getElem?_getD]

theorem patternStep_oversized (width height : Int)
    (st : List (Option Pattern) × List Event) (m : Int) (h : oversized width height m) :
    patternStep width height st m = st := by
  unfold oversized at h
  unfold patternStep
  dsimp only
  rw [if_pos h]

theorem patternStep_fits (width height : Int)
    (st : List (Option Pattern) × List Event) (m : Int) (h : ¬ oversized width height m) :
    patternStep width height st m =
      (st.1.set (m - 2).toNat (some (makePattern m)), st.2 ++ [Event.patternCreated m]) := by
  unfold oversized at h
  unfold patternStep
  dsimp only
  rw [if_neg h]

/-- After the loop of lines 61-87 has visited the masksizes `l`, the slot
`masksize - 2` holds the pattern of `masksize` when it was visited and fits,
and is empty otherwise; an event was recorded for exactly those. -/
theorem patterns_fold (width height : Int) (l : List Int)
    (hl : ∀ x ∈ l, 4 ≤ x ∧ x ≤ 27) :
    (l.foldl (patternStep width height) (List.replicate 27 none, [])).1.length = 27 ∧
      (∀ m : Int, 4 ≤ m → m ≤ 27 →
        (m ∈ l ∧ ¬ oversized width height m →
          (l.foldl (patternStep width height) (List.replicate 27 none, [])).1.getD
            (m - 2).toNat none = some (makePattern m)) ∧
        (¬ (m ∈ l ∧ ¬ oversized width height m) →
          (l.foldl (patternStep width height) (List.replicate 27 none, [])).1.getD
            (m - 2).toNat none = none)) ∧
      (∀ e ∈ (l.foldl (patternStep width height) (List.replicate 27 none, [])).2,
        ∃ x, e = Event.patternCreated x ∧ x ∈ l ∧ ¬ oversized width height x) := by
  induction l using List.reverseRecOn with
  | nil =>
    refine ⟨rfl, ?_, ?_⟩
    · intro m _ _
      refine ⟨fun h => absurd h.1 (List.not_mem_nil m), fun _ => ?_⟩
      exact getD_replicate_none 27 _
    · intro e he
      cases he
  | append_singleton l x ih =>
    have hx := hl x (by simp)
    obtain ⟨ilen, islot, itrace⟩ := ih (fun y hy => hl y (List.mem_append_left _ hy))
    rw [List.foldl_append, List.foldl_cons, List.foldl_nil]
    generalize l.foldl (patternStep width height) (List.replicate 27 none, []) = st
      at ilen islot itrace ⊢
    by_cases hov : oversized width height x
    · rw [patternStep_oversized width height st x hov]
      refine ⟨ilen, ?_, ?_⟩
      · intro m h4 h27
        obtain ⟨i1, i2⟩ := islot m h4 h27
        refine ⟨fun h => i1 ⟨?_, h.2⟩, fun h => i2 (fun hc => h ⟨List.mem_append_left _ hc.1, hc.2⟩)⟩
        rcases List.mem_append.mp h.1 with hm | hm
        · exact hm
        · rw [List.mem_singleton.mp hm] at h
          exact absurd hov h.2
      · intro e he
        obtain ⟨y, h1, h2, h3⟩ := itrace e he
        exact ⟨y, h1, List.mem_append_left _ h2, h3⟩
    · rw [patternStep_fits width height st x hov]
      dsimp only
      refine ⟨by rw [List.length_set]; exact ilen, ?_, ?_⟩
      · intro m h4 h27
        obtain ⟨i1, i2⟩ := islot m h4 h27
        by_cases hmx : m = x
        · subst hmx
          refine ⟨fun _ => getD_set_self _ _ _ _ (by omega), fun h => ?_⟩
          exact absurd ⟨List.mem_append_right _ (List.mem_singleton_self m), hov⟩ h
        · have hne : (x - 2).toNat ≠ (m - 2).toNat := by omega
          rw [getD_set_other _ _ _ _ _ hne]
          refine ⟨fun h => i1 ⟨?_, h.2⟩,
            fun h => i2 (fun hc => h ⟨List.mem_append_left _ hc.1, hc.2⟩)⟩
          rcases List.mem_append.mp h.1 with hm | hm
          · exact hm
          · exact absurd (List.mem_singleton.mp hm) hmx
      · intro e he
        rcases List.mem_append.mp he with h | h
        · obtain ⟨y, h1, h2, h3⟩ := itrace e h
          exact ⟨y, h1, List.mem_append_left _ h2, h3⟩
        · exact ⟨x, List.mem_singleton.mp h,
            List.mem_append_right _ (List.mem_singleton_self x), hov⟩

theorem createPatterns_spec (width height : Int) :
    (createPatterns width height).1.length = 27 ∧
      (∀ m : Int, 4 ≤ m → m ≤ 27 →
        (¬ oversized width height m →
          (createPatterns width height).1.getD (m - 2).toNat none = some (makePattern m)) ∧
        (oversized width height m →
          (createPatterns width height).1.getD (m - 2).toNat none = none)) ∧
      (∀ e ∈ (createPatterns width height).2,
        ∃ x, e = Event.patternCreated x ∧ ¬ oversized width height x) := by
  have hmem : ∀ x ∈ descend (HighRange + 2) (LowRange + 2), 4 ≤ x ∧ x ≤ 27 := by
    intro x hx
    have := mem_descend.mp hx
    simp only [LowRange, HighRange] at this
    omega
  obtain ⟨h1, h2, h3⟩ := patterns_fold width height _ hmem
  refine ⟨h1, ?_, ?_⟩
  · intro m h4 h27
    have hm : m ∈ descend (HighRange + 2) (LowRange + 2) :=
      mem_descend.mpr (by simp only [LowRange, HighRange]; omega)
    obtain ⟨i1, i2⟩ := h2 m h4 h27
    exact ⟨fun h => i1 ⟨hm, h⟩, fun h => i2 (fun hc => hc.2 h)⟩
  · intro e he
    obtain ⟨x, hx1, _, hx3⟩ := h3 e he
    exact ⟨x, hx1, hx3⟩

theorem matchStep_empty_slot (cv : Matcher) (img : Image)
    (patterns : List (Option Pattern)) (st : List Int × List Event) (m : Int)
    (h : patterns.getD (m - 2).toNat none = none) :
    matchStep cv img patterns st m = st := by
  unfold matchStep
  dsimp only
  split
  · rfl
  · rw [h]

theorem matchStep_fits (cv : Matcher) (img : Image)
    (patterns : List (Option Pattern)) (st : List Int × List Event) (m : Int)
    (hplen : patterns.length = 27) (hlen : st.1.length = 28) (h4 : 4 ≤ m) (h27 : m ≤ 27)
    (h : patterns.getD (m - 2).toNat none = some (makePattern m))
    (hfit : ¬ oversized img.width img.height m) :
    matchStep cv img patterns st m =
      (st.1.set (m - 1).toNat (wrapInt (cv.countMatches img (makePattern m))),
        st.2 ++ [Event.matched m]) := by
  unfold oversized at hfit
  unfold matchStep
  dsimp only
  rw [if_neg (by omega), h]
  dsimp only
  have hc : (makePattern m).cols = 2 + m + m - 1 + 2 := rfl
  have hr : (makePattern m).rows = 2 + m + m - 1 + 2 := rfl
  rw [hc, hr, if_neg hfit]

/-- After the loop of lines 130-190 has visited the masksizes `l`, the slot
`masksize - 1` holds the count of the pattern of `masksize` when it was visited
and fits, and 0 otherwise; a match was recorded for exactly those. -/
theorem counts_fold (cv : Matcher) (img : Image) (patterns : List (Option Pattern))
    (trace : List Event) (hplen : patterns.length = 27)
    (hpat : ∀ m : Int, 4 ≤ m → m ≤ 27 →
      (¬ oversized img.width img.height m →
        patterns.getD (m - 2).toNat none = some (makePattern m)) ∧
      (oversized img.width img.height m → patterns.getD (m - 2).toNat none = none))
    (l : List Int) (hl : ∀ x ∈ l, 4 ≤ x ∧ x ≤ 27) :
    (l.foldl (matchStep cv img patterns) (List.replicate 28 0, trace)).1.length = 28 ∧
      (∀ m : Int, 4 ≤ m → m ≤ 27 →
        (m ∈ l ∧ ¬ oversized img.width img.height m →
          (l.foldl (matchStep cv img patterns) (List.replicate 28 0, trace)).1.getD
            (m - 1).toNat 0 = wrapInt (cv.countMatches img (makePattern m))) ∧
        (¬ (m ∈ l ∧ ¬ oversized img.width img.height m) →
          (l.foldl (matchStep cv img patterns) (List.replicate 28 0, trace)).1.getD
            (m - 1).toNat 0 = 0)) ∧
      (∀ e ∈ (l.foldl (matchStep cv img patterns) (List.replicate 28 0, trace)).2,
        e ∈ trace ∨
          ∃ x, e = Event.matched x ∧ x ∈ l ∧ ¬ oversized img.width img.height x) := by
  induction l using List.reverseRecOn with
  | nil =>
    refine ⟨rfl, ?_, fun e he => Or.inl he⟩
    intro m _ _
    refine ⟨fun h => absurd h.1 (List.not_mem_nil m), fun _ => ?_⟩
    rcases getD_mem_or_default (List.replicate 28 (0 : Int)) (m - 1).toNat with h | h
    · exact List.eq_of_mem_replicate h
    · exact h
  | append_singleton l x ih =>
    have hx := hl x (by simp)
    obtain ⟨ilen, islot, itrace⟩ := ih (fun y hy => hl y (List.mem_append_left _ hy))
    rw [List.foldl_append, List.foldl_cons, List.foldl_nil]
    generalize l.foldl (matchStep cv img patterns) (List.replicate 28 0, trace) = st
      at ilen islot itrace ⊢
    by_cases hov : oversized img.width img.height x
    · rw [matchStep_empty_slot cv img patterns st x ((hpat x hx.1 hx.2).2 hov)]
      refine ⟨ilen, ?_, ?_⟩
      · intro m h4 h27
        obtain ⟨i1, i2⟩ := islot m h4 h27
        refine ⟨fun h => i1 ⟨?_, h.2⟩,
          fun h => i2 (fun hc => h ⟨List.mem_append_left _ hc.1, hc.2⟩)⟩
        rcases List.mem_append.mp h.1 with hm | hm
        · exact hm
        · rw [List.mem_singleton.mp hm] at h
          exact absurd hov h.2
      · intro e he
        rcases itrace e he with h | ⟨y, h1, h2, h3⟩
        · exact Or.inl h
        · exact Or.inr ⟨y, h1, List.mem_append_left _ h2, h3⟩
    · rw [matchStep_fits cv img patterns st x hplen ilen hx.1 hx.2 ((hpat x hx.1 hx.2).1 hov)
        hov]
      dsimp only
      refine ⟨by rw [List.length_set]; exact ilen, ?_, ?_⟩
      · intro m h4 h27
        obtain ⟨i1, i2⟩ := islot m h4 h27
        by_cases hmx : m = x
        · subst hmx
          refine ⟨fun _ => getD_set_self _ _ _ _ (by omega), fun h => ?_⟩
          exact absurd ⟨List.mem_append_right _ (List.mem_singleton_self m), hov⟩ h
        · have hne : (x - 1).toNat ≠ (m - 1).toNat := by omega
          rw [getD_set_other _ _ _ _ _ hne]
          refine ⟨fun h => i1 ⟨?_, h.2⟩,
            fun h => i2 (fun hc => h ⟨List.mem_append_left _ hc.1, hc.2⟩)⟩
          rcases List.mem_append.mp h.1 with hm | hm
          · exact hm
          · exact absurd (List.mem_singleton.mp hm) hmx
      · intro e he
        rcases List.mem_append.mp he with h | h
        · rcases itrace e h with h | ⟨y, h1, h2, h3⟩
          · exact Or.inl h
          · exact Or.inr ⟨y, h1, List.mem_append_left _ h2, h3⟩
        · exact Or.inr ⟨x, List.mem_singleton.mp h,
            List.mem_append_right _ (List.mem_singleton_self x), hov⟩

/-- The MatchCount array of a call: slot `masksize - 1` holds the count of the
pattern generated for `masksize` when that pattern fits the image, and 0 when
it does not. -/
theorem resolutionsOf_spec (cv : Matcher) (img : Image) (m : Int) (h4 : 4 ≤ m)
    (h27 : m ≤ 27) :
    (¬ oversized img.width img.height m →
        (resolutionsOf cv img).getD (m - 1).toNat 0 =
          wrapInt (cv.countMatches img (makePattern m))) ∧
      (oversized img.width img.height m → (resolutionsOf cv img).getD (m - 1).toNat 0 = 0) := by
  have hmem : ∀ x ∈ descend (HighRange + 2) (LowRange + 2), 4 ≤ x ∧ x ≤ 27 := by
    intro x hx
    have := mem_descend.mp hx
    simp only [LowRange, HighRange] at this
    omega
  have hm : m ∈ descend (HighRange + 2) (LowRange + 2) :=
    mem_descend.mpr (by simp only [LowRange, HighRange]; omega)
  obtain ⟨p1, p2, _⟩ := createPatterns_spec img.width img.height
  obtain ⟨_, c2, _⟩ := counts_fold cv img (createPatterns img.width img.height).1
    ((createPatterns img.width img.height).2 ++ [Event.preprocessed]) p1 p2 _ hmem
  obtain ⟨i1, i2⟩ := c2 m h4 h27
  exact ⟨fun h => i1 ⟨hm, h⟩, fun h => i2 (fun hc => hc.2 h)⟩

/-- Every pattern creation and every match in the trace of a call is for a
masksize whose canvas fits the image. -/
theorem trace_fits (cv : Matcher) (img : Image) :
    ∀ e ∈ (matchPatterns cv img (createPatterns img.width img.height).1
        ((createPatterns img.width img.height).2 ++ [Event.preprocessed])).2,
      e = Event.preprocessed ∨
        ∃ x, (e = Event.patternCreated x ∨ e = Event.matched x) ∧
          ¬ oversized img.width img.height x := by
  have hmem : ∀ x ∈ descend (HighRange + 2) (LowRange + 2), 4 ≤ x ∧ x ≤ 27 := by
    intro x hx
    have := mem_descend.mp hx
    simp only [LowRange, HighRange] at this
    omega
  obtain ⟨p1, p2, p3⟩ := createPatterns_spec img.width img.height
  obtain ⟨_, _, c3⟩ := counts_fold cv img (createPatterns img.width img.height).1
    ((createPatterns img.width img.height).2 ++ [Event.preprocessed]) p1 p2 _ hmem
  intro e he
  rcases c3 e he with h | ⟨x, h1, _, h3⟩
  · rcases List.mem_append.mp h with h | h
    · obtain ⟨x, h1, h2⟩ := p3 e h
      exact Or.inr ⟨x, Or.inl h1, h2⟩
    · exact Or.inl (List.mem_singleton.mp h)
  · exact Or.inr ⟨x, Or.inr h1, h3⟩

/-- A recorded best group is what the selector returns. -/
theorem select_of_recorded (resolutions : List Int)
    (h : (bestGroup resolutions).best_original_index_of_max ≠ -1) :
    selectResolution resolutions =
      (bestGroup resolutions).best_original_index_of_max + 1 := by
  rcases bestGroup_inv resolutions with h1 | ⟨h0, _, _⟩
  · exact absurd h1 h
  · rcases fold_optimal resolutions (adjacentPairs (extremaMIN_indices resolutions)) with
      ⟨_, hinit⟩ | ⟨p, hp, _, _, _⟩
    · have hb : bestGroup resolutions = initialBest := hinit
      rw [hb] at h
      exact absurd rfl h
    · unfold selectResolution
      dsimp only
      rw [if_neg (adjacentPairs_length hp), if_pos h, if_neg (by omega)]

theorem matchStep_length (cv : Matcher) (img : Image) (patterns : List (Option Pattern))
    (st : List Int × List Event) (m : Int) :
    (matchStep cv img patterns st m).1.length = st.1.length := by
  rcases matchStep_fst cv img patterns st m with h | ⟨v, h⟩
  · rw [h]
  · rw [h, List.length_set]

theorem match_fold_length (cv : Matcher) (img : Image) (patterns : List (Option Pattern))
    (ms : List Int) (st : List Int × List Event) :
    (ms.foldl (matchStep cv img patterns) st).1.length = st.1.length := by
  induction ms generalizing st with
  | nil => rfl
  | cons m t ih => rw [List.foldl_cons, ih, matchStep_length]

/-! ## Claims -/

/-- C1: a call whose input is invalid (null pixel buffer, `width <= 0`,
`height <= 0`, or a channel count other than 3 and 4) returns exactly `-1`,
whatever the matcher would answer, and returns before any pattern is created
and before any preprocessing or matching is done (the trace of calls to the
image primitives is empty). -/
theorem C1_invalid_input_returns_minus_one (cv : Matcher) (img : Image)
    (h : img.pixelData = none ∨ img.width ≤ 0 ∨ img.height ≤ 0 ∨
      (img.channel ≠ 3 ∧ img.channel ≠ 4)) :
    (detectMosaicResolution cv img).result = -1 ∧
      (detectMosaicResolution cv img).trace = [] := by
  unfold detectMosaicResolution
  rw [if_pos h]
  exact ⟨rfl, rfl⟩

theorem C1_invalid_input_returns_minus_one_witness :
    (detectMosaicResolution ⟨fun _ _ => 7⟩ ⟨some (List.replicate (64 * 64 * 2) 0), 64, 64, 2⟩).result = -1 ∧
      (detectMosaicResolution ⟨fun _ _ => 7⟩ ⟨some (List.replicate (64 * 64 * 2) 0), 64, 64, 2⟩).trace = [] :=
  C1_invalid_input_returns_minus_one ⟨fun _ _ => 7⟩ ⟨some (List.replicate (64 * 64 * 2) 0), 64, 64, 2⟩
    (Or.inr (Or.inr (Or.inr (by decide))))

/-- C2: for every valid input (non-null buffer, `width > 0`, `height > 0`,
channel 3 or 4) and whatever counts the template matcher produces, the result
of `detectMosaicResolution` lies in `[4,27]`; in particular it is never `-1`.
No lower bound on the image size is assumed, so this includes images smaller
than the 57-pixel side of the largest pattern. -/
theorem C2_valid_result_in_range (cv : Matcher) (img : Image) (h : validInput img) :
    4 ≤ (detectMosaicResolution cv img).result ∧
      (detectMosaicResolution cv img).result ≤ 27 := by
  rw [detect_valid cv img h]
  dsimp only
  obtain ⟨hlen, hzero⟩ := resolutionsOf_shape cv img
  rcases selectResolution_cases (resolutionsOf cv img) with hd | ⟨i, hi, hpos, _, hres⟩
  · rw [hd]
    decide
  · rw [hres]
    have h3 : ¬ (i < 3 ∨ 27 ≤ i) := by
      intro hc
      have := hzero i hc
      omega
    omega

theorem C2_valid_result_in_range_witness :
    validInput ⟨some (List.replicate (20 * 30 * 3) 0), 20, 30, 3⟩ ∧
      4 ≤ (detectMosaicResolution ⟨fun _ p => p.rows.toNat⟩ ⟨some (List.replicate (20 * 30 * 3) 0), 20, 30, 3⟩).result ∧
      (detectMosaicResolution ⟨fun _ p => p.rows.toNat⟩ ⟨some (List.replicate (20 * 30 * 3) 0), 20, 30, 3⟩).result ≤ 27 :=
  ⟨by unfold validInput; decide,
    C2_valid_result_in_range ⟨fun _ p => p.rows.toNat⟩ ⟨some (List.replicate (20 * 30 * 3) 0), 20, 30, 3⟩
      (by unfold validInput; decide)⟩

/-- C3: when every entry of the MatchCount array is 0, every group has a
non-positive maximum (so each one is skipped by the test of line 289), the
best-so-far variables are never written, and the Resolution Selector returns
the default sentinel `26 = HighRange + 1`. -/
theorem C3_all_zero_gives_default (resolutions : List Int)
    (h : ∀ x ∈ resolutions, x = 0) :
    (∀ p ∈ adjacentPairs (extremaMIN_indices resolutions),
        (scanGroup resolutions p.1 p.2).current_max_val_in_group ≤ 0) ∧
      (bestGroup resolutions).best_original_index_of_max = -1 ∧
      selectResolution resolutions = 26 := by
  obtain ⟨h1, h2, h3⟩ :=
    select_no_positive resolutions (fun x hx => le_of_eq (h x hx))
  refine ⟨fun p _ => h1 p.1 p.2, ?_, h3⟩
  rw [h2]

theorem C3_all_zero_gives_default_witness :
    (∀ x ∈ List.replicate 28 (0 : Int), x = 0) ∧
      (∀ p ∈ adjacentPairs (extremaMIN_indices (List.replicate 28 0)),
        (scanGroup (List.replicate 28 0) p.1 p.2).current_max_val_in_group ≤ 0) ∧
      (bestGroup (List.replicate 28 0)).best_original_index_of_max = -1 ∧
      selectResolution (List.replicate 28 0) = 26 :=
  ⟨fun _ hx => List.eq_of_mem_replicate hx,
    C3_all_zero_gives_default (List.replicate 28 0) (fun _ hx => List.eq_of_mem_replicate hx)⟩

/-- C4: for every valid input whose width or height is below 11 (the side
`2*4+3` of the smallest pattern), every candidate `masksize` in `[4,27]` is
skipped as oversized: no pattern is created, no match count is written (the
MatchCount array stays all 0, the only call made is the preprocessing), and
`detectMosaicResolution` returns the default `26`, whatever the pixel contents
and the matcher. -/
theorem C4_tiny_image_returns_default (cv : Matcher) (img : Image)
    (h : validInput img) (hsmall : img.width < 11 ∨ img.height < 11) :
    (createPatterns img.width img.height).1 = List.replicate 27 none ∧
      resolutionsOf cv img = List.replicate 28 0 ∧
      (detectMosaicResolution cv img).trace = [Event.preprocessed] ∧
      (detectMosaicResolution cv img).result = 26 := by
  have hc := createPatterns_too_small img.width img.height hsmall
  have hr : resolutionsOf cv img = List.replicate 28 0 := by
    unfold resolutionsOf
    rw [hc, matchPatterns_no_pattern]
  refine ⟨by rw [hc], hr, ?_, ?_⟩
  · rw [detect_valid cv img h]
    dsimp only
    rw [hc, matchPatterns_no_pattern]
    rfl
  · rw [detect_valid cv img h]
    dsimp only
    rw [hr]
    decide

theorem C4_tiny_image_returns_default_witness :
    validInput ⟨some (List.replicate (10 * 500 * 4) 9), 10, 500, 4⟩ ∧
      ((10 : Int) < 11 ∨ (500 : Int) < 11) ∧
      (createPatterns 10 500).1 = List.replicate 27 none ∧
      resolutionsOf ⟨fun _ _ => 1000⟩ ⟨some (List.replicate (10 * 500 * 4) 9), 10, 500, 4⟩ = List.replicate 28 0 ∧
      (detectMosaicResolution ⟨fun _ _ => 1000⟩ ⟨some (List.replicate (10 * 500 * 4) 9), 10, 500, 4⟩).trace
        = [Event.preprocessed] ∧
      (detectMosaicResolution ⟨fun _ _ => 1000⟩ ⟨some (List.replicate (10 * 500 * 4) 9), 10, 500, 4⟩).result = 26 :=
  ⟨by unfold validInput; decide, by decide,
    C4_tiny_image_returns_default ⟨fun _ _ => 1000⟩ ⟨some (List.replicate (10 * 500 * 4) 9), 10, 500, 4⟩
      (by unfold validInput; decide) (by decide)⟩

set_option maxRecDepth 100000 in
/-- C5 (as stated, refuted): on a valid 64x64 RGB image for which the matcher
reports 3 matches of the `masksize = 26` pattern (side 55) and none of any
other pattern, the group `[2,26]` qualifies, its maximum is at resolution index
25, and the call returns `25 + 1 = 26`: the value 26 is returned although a
group qualified and a match count is not 0. -/
theorem C5_default_value_is_also_a_detection :
    validInput ⟨some (List.replicate (64 * 64 * 3) 128), 64, 64, 3⟩ ∧
      (detectMosaicResolution ⟨fun _ p => if p.rows = 55 then 3 else 0⟩
        ⟨some (List.replicate (64 * 64 * 3) 128), 64, 64, 3⟩).result = 26 ∧
      (resolutionsOf ⟨fun _ p => if p.rows = 55 then 3 else 0⟩
        ⟨some (List.replicate (64 * 64 * 3) 128), 64, 64, 3⟩).getD 25 0 = 3 ∧
      (2, 26) ∈ adjacentPairs (extremaMIN_indices
        (resolutionsOf ⟨fun _ p => if p.rows = 55 then 3 else 0⟩
          ⟨some (List.replicate (64 * 64 * 3) 128), 64, 64, 3⟩)) ∧
      qualifies (resolutionsOf ⟨fun _ p => if p.rows = 55 then 3 else 0⟩
        ⟨some (List.replicate (64 * 64 * 3) 128), 64, 64, 3⟩) (2, 26) := by
  refine ⟨?_, ?_, ?_, ?_, ?_⟩
  · unfold validInput
    decide
  · decide
  · decide
  · decide
  · unfold qualifies validGroup
    decide

/-- C5 (amended): for every valid input, if no match count is positive then
`detectMosaicResolution` returns the default 26; and if it returns 26 then
either no candidate group qualified and no match count is positive, or the
best group's maximum is at resolution index 25 and `MatchCount[25] > 0` (the
`masksize = 26` candidate was detected).  The value 26 by itself does not tell
the two apart. -/
theorem C5_default_or_masksize_26 (cv : Matcher) (img : Image) (h : validInput img) :
    ((∀ x ∈ resolutionsOf cv img, x ≤ 0) →
        (detectMosaicResolution cv img).result = 26) ∧
      ((detectMosaicResolution cv img).result = 26 →
        ((∀ p ∈ adjacentPairs (extremaMIN_indices (resolutionsOf cv img)),
            ¬ qualifies (resolutionsOf cv img) p) ∧
          ∀ x ∈ resolutionsOf cv img, x ≤ 0) ∨
        ((bestGroup (resolutionsOf cv img)).best_original_index_of_max = 25 ∧
          0 < (resolutionsOf cv img).getD 25 0)) := by
  rw [detect_valid cv img h]
  dsimp only
  obtain ⟨hlen, hzero⟩ := resolutionsOf_shape cv img
  refine ⟨fun hall => (select_no_positive _ hall).2.2, ?_⟩
  intro hres
  by_cases hex : ∃ p ∈ adjacentPairs (extremaMIN_indices (resolutionsOf cv img)),
      qualifies (resolutionsOf cv img) p
  · right
    obtain ⟨p, _, hq, hb, hsel, _⟩ := select_eq_best _ hex
    have hidx := groupEntry_index _ p hq
    have h25 : (groupEntry (resolutionsOf cv img) p).best_original_index_of_max = 25 := by
      omega
    rw [hb]
    refine ⟨h25, ?_⟩
    have := hidx.2.2.2.2
    rw [h25] at this
    exact this
  · left
    have hnone : ∀ p ∈ adjacentPairs (extremaMIN_indices (resolutionsOf cv img)),
        ¬ qualifies (resolutionsOf cv img) p := fun p hp hq => hex ⟨p, hp, hq⟩
    refine ⟨hnone, ?_⟩
    intro x hx
    by_contra hpos
    obtain ⟨j, hj, hxj⟩ := List.mem_iff_getElem.mp hx
    have hget : (resolutionsOf cv img).getD j 0 = x := by
      rw [List.getD_eq_getElem _ _ hj]
      exact hxj
    have hj3 : ¬ (j < 3 ∨ 27 ≤ j) := by
      intro hc
      have := hzero j hc
      omega
    obtain ⟨p, hp, hq⟩ := exists_qualifying (resolutionsOf cv img) hlen (j : Int)
      (by omega) (by omega) (by rw [Int.toNat_ofNat, hget]; omega)
    exact hnone p hp hq

theorem C5_default_or_masksize_26_witness :
    validInput ⟨some (List.replicate (64 * 64 * 3) 128), 64, 64, 3⟩ ∧
    (((∀ x ∈ resolutionsOf ⟨fun _ _ => 0⟩
          ⟨some (List.replicate (64 * 64 * 3) 128), 64, 64, 3⟩, x ≤ 0) →
        (detectMosaicResolution ⟨fun _ _ => 0⟩
          ⟨some (List.replicate (64 * 64 * 3) 128), 64, 64, 3⟩).result = 26) ∧
      ((detectMosaicResolution ⟨fun _ _ => 0⟩
          ⟨some (List.replicate (64 * 64 * 3) 128), 64, 64, 3⟩).result = 26 →
        ((∀ p ∈ adjacentPairs (extremaMIN_indices (resolutionsOf ⟨fun _ _ => 0⟩
              ⟨some (List.replicate (64 * 64 * 3) 128), 64, 64, 3⟩)),
            ¬ qualifies (resolutionsOf ⟨fun _ _ => 0⟩
              ⟨some (List.replicate (64 * 64 * 3) 128), 64, 64, 3⟩) p) ∧
          ∀ x ∈ resolutionsOf ⟨fun _ _ => 0⟩
            ⟨some (List.replicate (64 * 64 * 3) 128), 64, 64, 3⟩, x ≤ 0) ∨
        ((bestGroup (resolutionsOf ⟨fun _ _ => 0⟩
            ⟨some (List.replicate (64 * 64 * 3) 128), 64, 64, 3⟩)).best_original_index_of_max
            = 25 ∧
          0 < (resolutionsOf ⟨fun _ _ => 0⟩
            ⟨some (List.replicate (64 * 64 * 3) 128), 64, 64, 3⟩).getD 25 0))) :=
  ⟨by unfold validInput; decide,
    C5_default_or_masksize_26 ⟨fun _ _ => 0⟩
      ⟨some (List.replicate (64 * 64 * 3) 128), 64, 64, 3⟩ (by unfold validInput; decide)⟩

/-- C6: for every `masksize` `M` in `[4,27]` and every count `c > 0`, on the
MatchCount array (length 28) that is 0 everywhere except `MatchCount[M-1] = c`
the Resolution Selector returns `pos + 1 = M`. -/
theorem C6_single_match_reports_its_masksize (M : Nat) (c : Int)
    (hM : 4 ≤ M ∧ M ≤ 27) (hc : 0 < c) :
    selectResolution ((List.replicate 28 0).set (M - 1) c) = (M : Int) := by
  have hlen : ((List.replicate 28 (0 : Int)).set (M - 1) c).length = 28 := by
    rw [List.length_set, List.length_replicate]
  have hM1 : ((List.replicate 28 (0 : Int)).set (M - 1) c).getD (M - 1) 0 = c := by
    rw [getD_set_replicate, if_pos ⟨rfl, by omega⟩]
  have hex := exists_qualifying _ hlen ((M - 1 : Nat) : Int) (by omega) (by omega)
    (by rw [Int.toNat_ofNat, hM1]; exact hc)
  obtain ⟨p, _, hq, _, hsel, _⟩ := select_eq_best _ hex
  have hidx := groupEntry_index _ p hq
  have hpos := hidx.2.2.2.2
  rw [getD_set_replicate] at hpos
  have hk : (groupEntry ((List.replicate 28 (0 : Int)).set (M - 1) c)
      p).best_original_index_of_max.toNat = M - 1 := by
    by_contra hne
    rw [if_neg (fun hh => hne hh.1)] at hpos
    omega
  rw [hsel]
  omega

theorem C6_single_match_reports_its_masksize_witness :
    ((4 ≤ 10 ∧ 10 ≤ 27) ∧ (0 : Int) < 5) ∧
      selectResolution ((List.replicate 28 0).set 9 5) = 10 :=
  ⟨by decide, C6_single_match_reports_its_masksize 10 5 (by decide) (by decide)⟩

set_option maxRecDepth 100000 in
/-- C7 (as stated, refuted): on the MatchCount array that is 0 except for count
7 at indices 5, 9 and 13, the groups are `[2,6]`, `[6,10]`, `[10,14]` and
`[14,27]`.  The groups `[6,10]` and `[10,14]` qualify, have equal `sum_score`
and equal `max_score`, their maxima are at indices 9 and 13, and no group
scores higher than they do.  Yet the Resolution Selector keeps the group
`[2,6]`, which ties with both and comes first, and returns `5 + 1 = 6`, not
`9 + 1 = 10`. -/
theorem C7_third_tying_group_is_chosen :
    adjacentPairs (extremaMIN_indices ((((List.replicate 28 0).set 5 7).set 9 7).set 13 7)) =
        [(2, 6), (6, 10), (10, 14), (14, 27)] ∧
      qualifies ((((List.replicate 28 0).set 5 7).set 9 7).set 13 7) (6, 10) ∧
      qualifies ((((List.replicate 28 0).set 5 7).set 9 7).set 13 7) (10, 14) ∧
      (groupEntry ((((List.replicate 28 0).set 5 7).set 9 7).set 13 7)
          (6, 10)).best_group_sum_score =
        (groupEntry ((((List.replicate 28 0).set 5 7).set 9 7).set 13 7)
          (10, 14)).best_group_sum_score ∧
      (groupEntry ((((List.replicate 28 0).set 5 7).set 9 7).set 13 7)
          (6, 10)).best_group_max_val_score =
        (groupEntry ((((List.replicate 28 0).set 5 7).set 9 7).set 13 7)
          (10, 14)).best_group_max_val_score ∧
      (groupEntry ((((List.replicate 28 0).set 5 7).set 9 7).set 13 7)
        (6, 10)).best_original_index_of_max = 9 ∧
      (groupEntry ((((List.replicate 28 0).set 5 7).set 9 7).set 13 7)
        (10, 14)).best_original_index_of_max = 13 ∧
      (∀ q ∈ adjacentPairs (extremaMIN_indices
          ((((List.replicate 28 0).set 5 7).set 9 7).set 13 7)),
        (groupEntry ((((List.replicate 28 0).set 5 7).set 9 7).set 13 7)
            q).best_group_sum_score ≤
          (groupEntry ((((List.replicate 28 0).set 5 7).set 9 7).set 13 7)
            (6, 10)).best_group_sum_score ∧
        (groupEntry ((((List.replicate 28 0).set 5 7).set 9 7).set 13 7)
            q).best_group_max_val_score ≤
          (groupEntry ((((List.replicate 28 0).set 5 7).set 9 7).set 13 7)
            (6, 10)).best_group_max_val_score) ∧
      selectResolution ((((List.replicate 28 0).set 5 7).set 9 7).set 13 7) = 5 + 1 ∧
      selectResolution ((((List.replicate 28 0).set 5 7).set 9 7).set 13 7) ≠ 9 + 1 := by
  refine ⟨by decide, ?_, ?_, by decide, by decide, by decide, by decide, by decide,
    by decide, by decide⟩
  · unfold qualifies validGroup
    decide
  · unfold qualifies validGroup
    decide

/-- C7 (amended): let `a` and `b` be two qualifying groups of a MatchCount
array with equal `sum_score` and equal `max_score`, the maximum of `a` at the
smaller index, and let no other qualifying group beat `a`: each scores lower,
or ties on both scores with its maximum at an index not below that of `a`.
Then the Resolution Selector returns `pos + 1` for the maximum of `a`, the
group with the smaller index, and not that of `b`. -/
theorem C7_full_tie_prefers_smaller_index (resolutions : List Int) (a b : Int × Int)
    (ha : a ∈ adjacentPairs (extremaMIN_indices resolutions))
    (hb : b ∈ adjacentPairs (extremaMIN_indices resolutions))
    (qa : qualifies resolutions a) (qb : qualifies resolutions b)
    (hsum : (groupEntry resolutions a).best_group_sum_score =
      (groupEntry resolutions b).best_group_sum_score)
    (hmax : (groupEntry resolutions a).best_group_max_val_score =
      (groupEntry resolutions b).best_group_max_val_score)
    (hidx : (groupEntry resolutions a).best_original_index_of_max <
      (groupEntry resolutions b).best_original_index_of_max)
    (htop : ∀ q ∈ adjacentPairs (extremaMIN_indices resolutions), qualifies resolutions q →
      q ≠ a → q ≠ b → noWorse (groupEntry resolutions a) (groupEntry resolutions q)) :
    selectResolution resolutions = (groupEntry resolutions a).best_original_index_of_max + 1 ∧
      selectResolution resolutions ≠
        (groupEntry resolutions b).best_original_index_of_max + 1 := by
  obtain ⟨p, hp, hq, _, hsel, hbest⟩ := select_eq_best resolutions ⟨a, ha, qa⟩
  have h1 := hbest a ha qa
  have h2 := hbest b hb qb
  have h3 : noWorse (groupEntry resolutions a) (groupEntry resolutions p) := by
    by_cases hpa : p = a
    · rw [hpa]
      unfold noWorse
      omega
    · by_cases hpb : p = b
      · rw [hpb]
        unfold noWorse
        omega
      · exact htop p hp hq hpa hpb
  unfold noWorse at h1 h2 h3
  rw [hsel]
  constructor
  · omega
  · omega

set_option maxRecDepth 100000 in
theorem C7_full_tie_prefers_smaller_index_witness :
    ((2, 6) ∈ adjacentPairs (extremaMIN_indices
        (((List.replicate 28 0).set 5 7).set 9 7)) ∧
      (6, 10) ∈ adjacentPairs (extremaMIN_indices
        (((List.replicate 28 0).set 5 7).set 9 7)) ∧
      (groupEntry (((List.replicate 28 0).set 5 7).set 9 7) (2, 6)).best_original_index_of_max
        = 5 ∧
      (groupEntry (((List.replicate 28 0).set 5 7).set 9 7) (6, 10)).best_original_index_of_max
        = 9) ∧
      selectResolution (((List.replicate 28 0).set 5 7).set 9 7) = 5 + 1 ∧
      selectResolution (((List.replicate 28 0).set 5 7).set 9 7) ≠ 9 + 1 :=
  ⟨by decide,
    C7_full_tie_prefers_smaller_index (((List.replicate 28 0).set 5 7).set 9 7) (2, 6) (6, 10)
      (by decide) (by decide)
      (by unfold qualifies validGroup; decide) (by unfold qualifies validGroup; decide)
      (by decide) (by decide) (by decide)
      (by
        have hpairs : adjacentPairs (extremaMIN_indices
            (((List.replicate 28 0).set 5 7).set 9 7)) = [(2, 6), (6, 10), (10, 27)] := by
          decide
        intro q hq hqual h1 h2
        rw [hpairs] at hq
        simp only [List.mem_cons, List.mem_singleton, List.not_mem_nil, or_false] at hq
        rcases hq with rfl | rfl | rfl
        · exact absurd rfl h1
        · exact absurd rfl h2
        · exact absurd hqual (by unfold qualifies validGroup; decide))⟩

/-- C8: for every non-negative group sum `s` and group maximum `m` whose scores
fit an `int`, the casts `static_cast<int>(s * 0.05)` and
`static_cast<int>(m * 0.15)` of the binary64 products are `floor(s/20)` and
`floor(3m/20)` (truncated, not rounded), and the scores computed by the
selector are `sum_score = s + floor(s/20)` and `max_score = m + floor(3m/20)`.
In particular sum 19 gives 19, sum 39 gives 40 and sum 100 gives 105. -/
theorem C8_scores_truncate (s m : Int) (hs : 0 ≤ s) (hm : 0 ≤ m)
    (hsfit : s + s / 20 < 2147483648) (hmfit : m + 3 * m / 20 < 2147483648) :
    truncMul s mant005 56 = s / 20 ∧ truncMul m mant015 55 = 3 * m / 20 ∧
      sumScore s = s + s / 20 ∧ maxScore m = m + 3 * m / 20 ∧
      sumScore 19 = 19 ∧ sumScore 39 = 40 ∧ sumScore 100 = 105 :=
  ⟨truncMul_eq005 s hs (by omega), truncMul_eq015 m hm (by omega),
    sumScore_eq s hs hsfit, maxScore_eq m hm hmfit, by decide, by decide, by decide⟩

theorem C8_scores_truncate_witness :
    ((0 : Int) ≤ 2044723199 ∧ (0 : Int) ≤ 1867377080 ∧
        (2044723199 : Int) + 2044723199 / 20 < 2147483648 ∧
        (1867377080 : Int) + 3 * 1867377080 / 20 < 2147483648) ∧
      truncMul 2044723199 mant005 56 = 2044723199 / 20 ∧
      truncMul 1867377080 mant015 55 = 3 * 1867377080 / 20 ∧
      sumScore 2044723199 = 2044723199 + 2044723199 / 20 ∧
      maxScore 1867377080 = 1867377080 + 3 * 1867377080 / 20 ∧
      sumScore 19 = 19 ∧ sumScore 39 = 40 ∧ sumScore 100 = 105 :=
  ⟨by decide,
    C8_scores_truncate 2044723199 1867377080 (by decide) (by decide) (by decide) (by decide)⟩

/-- C9: an index `i` is recorded by the local-minimum detection if and only if
`1 <= i <= len-2`, `count[i] < count[i-1]` and `count[i] <= count[i+1]` (strict
on the left, non-strict on the right); nothing outside `[1, len-2]` is
recorded; on `[5,3,3,5]` exactly index 1 is recorded (index 2 is not). -/
theorem C9_local_minimum_test (resolutions : List Int) (i : Nat) :
    ((i : Int) ∈ localMinima resolutions ↔
        1 ≤ i ∧ i + 2 ≤ resolutions.length ∧
          resolutions.getD i 0 < resolutions.getD (i - 1) 0 ∧
          resolutions.getD i 0 ≤ resolutions.getD (i + 1) 0) ∧
      (∀ x ∈ localMinima resolutions, 1 ≤ x ∧ x ≤ (resolutions.length : Int) - 2) ∧
      localMinima [5, 3, 3, 5] = [1] := by
  refine ⟨?_, ?_, by decide⟩
  · rw [mem_localMinima, Int.toNat_ofNat]
    constructor
    · rintro ⟨h1, h2, h3, h4⟩
      exact ⟨by omega, by omega, h3, h4⟩
    · rintro ⟨h1, h2, h3, h4⟩
      exact ⟨by omega, by omega, h3, h4⟩
  · intro x hx
    have := (mem_localMinima resolutions x).mp hx
    exact ⟨this.1, this.2.1⟩

/-- C10: the group chosen by the Resolution Selector is the lexicographic
optimum over the qualifying groups (bounds check passed, maximum > 0).  Either
no group qualifies and the default 26 is returned, or there is a qualifying
group `p` such that the returned value is `pos + 1` for the maximum of `p` and
every qualifying group `q` has a smaller `sum_score`, or the same `sum_score`
and a smaller `max_score`, or the same two scores and its maximum at an index
not below that of `p`. -/
theorem C10_selector_lexicographic_optimum (resolutions : List Int) :
    ((∀ p ∈ adjacentPairs (extremaMIN_indices resolutions), ¬ qualifies resolutions p) ∧
        selectResolution resolutions = 26) ∨
      ∃ p ∈ adjacentPairs (extremaMIN_indices resolutions), qualifies resolutions p ∧
        selectResolution resolutions =
          (scanGroup resolutions p.1 p.2).current_original_index_of_max_in_group + 1 ∧
        ∀ q ∈ adjacentPairs (extremaMIN_indices resolutions), qualifies resolutions q →
          sumScore (scanGroup resolutions q.1 q.2).current_group_sum <
              sumScore (scanGroup resolutions p.1 p.2).current_group_sum ∨
            (sumScore (scanGroup resolutions q.1 q.2).current_group_sum =
                sumScore (scanGroup resolutions p.1 p.2).current_group_sum ∧
              (maxScore (scanGroup resolutions q.1 q.2).current_max_val_in_group <
                  maxScore (scanGroup resolutions p.1 p.2).current_max_val_in_group ∨
                (maxScore (scanGroup resolutions q.1 q.2).current_max_val_in_group =
                    maxScore (scanGroup resolutions p.1 p.2).current_max_val_in_group ∧
                  (scanGroup resolutions p.1 p.2).current_original_index_of_max_in_group ≤
                    (scanGroup resolutions q.1 q.2).current_original_index_of_max_in_group))) := by
  by_cases hex : ∃ p ∈ adjacentPairs (extremaMIN_indices resolutions),
      qualifies resolutions p
  · right
    obtain ⟨p, hp, hq, _, hsel, hbest⟩ := select_eq_best resolutions hex
    exact ⟨p, hp, hq, hsel, fun q hq1 hq2 => hbest q hq1 hq2⟩
  · left
    have hnone : ∀ p ∈ adjacentPairs (extremaMIN_indices resolutions),
        ¬ qualifies resolutions p := fun p hp hq => hex ⟨p, hp, hq⟩
    exact ⟨hnone, select_none_qualifies resolutions hnone⟩

/-- C11: for every MatchCount array of non-negative counts and every closed
group `[start, end]` that passes the bounds check (as every pair of adjacent
extrema does), the per-group scan ends with `sum` = the total of
`MatchCount[start..end]` (the total fitting an `int`), `max_val` = the maximum
of `MatchCount[start..end]`, and `pos` = the smallest index of `[start, end]`
at which `max_val` is attained. -/
theorem C11_group_scan_sum_max_first_index (resolutions : List Int)
    (hnn : ∀ x ∈ resolutions, 0 ≤ x) (s e : Int) (hvalid : validGroup resolutions (s, e))
    (hfit : groupTotal resolutions s e < 2147483648) :
    (scanGroup resolutions s e).current_group_sum = groupTotal resolutions s e ∧
      (s ≤ (scanGroup resolutions s e).current_original_index_of_max_in_group ∧
        (scanGroup resolutions s e).current_original_index_of_max_in_group ≤ e) ∧
      (scanGroup resolutions s e).current_max_val_in_group =
        resolutions.getD
          (scanGroup resolutions s e).current_original_index_of_max_in_group.toNat 0 ∧
      (∀ i : Int, s ≤ i → i ≤ e →
        resolutions.getD i.toNat 0 ≤ (scanGroup resolutions s e).current_max_val_in_group) ∧
      (∀ i : Int, s ≤ i →
        i < (scanGroup resolutions s e).current_original_index_of_max_in_group →
        resolutions.getD i.toNat 0 < (scanGroup resolutions s e).current_max_val_in_group) := by
  unfold validGroup at hvalid
  dsimp only at hvalid
  obtain ⟨n, hn⟩ : ∃ n : Nat, e = s + (n : Int) := ⟨(e - s).toNat, by omega⟩
  subst hn
  obtain ⟨hidx, hmax, hall, hfirst, _, hsum⟩ :=
    scan_spec resolutions (getD_nonneg resolutions hnn) s n
  exact ⟨hsum hfit, hidx, hmax, hall, hfirst⟩

set_option maxRecDepth 100000 in
theorem C11_group_scan_sum_max_first_index_witness :
    ((∀ x ∈ (((List.replicate 28 (0 : Int)).set 7 4).set 8 9).set 9 9, 0 ≤ x) ∧
      validGroup ((((List.replicate 28 (0 : Int)).set 7 4).set 8 9).set 9 9) (2, 10) ∧
      groupTotal ((((List.replicate 28 (0 : Int)).set 7 4).set 8 9).set 9 9) 2 10 = 22 ∧
      (scanGroup ((((List.replicate 28 (0 : Int)).set 7 4).set 8 9).set 9 9) 2
        10).current_original_index_of_max_in_group = 8) ∧
      (scanGroup ((((List.replicate 28 (0 : Int)).set 7 4).set 8 9).set 9 9) 2
          10).current_group_sum =
        groupTotal ((((List.replicate 28 (0 : Int)).set 7 4).set 8 9).set 9 9) 2 10 ∧
      (2 ≤ (scanGroup ((((List.replicate 28 (0 : Int)).set 7 4).set 8 9).set 9 9) 2
          10).current_original_index_of_max_in_group ∧
        (scanGroup ((((List.replicate 28 (0 : Int)).set 7 4).set 8 9).set 9 9) 2
          10).current_original_index_of_max_in_group ≤ 10) ∧
      (scanGroup ((((List.replicate 28 (0 : Int)).set 7 4).set 8 9).set 9 9) 2
          10).current_max_val_in_group =
        ((((List.replicate 28 (0 : Int)).set 7 4).set 8 9).set 9 9).getD
          (scanGroup ((((List.replicate 28 (0 : Int)).set 7 4).set 8 9).set 9 9) 2
            10).current_original_index_of_max_in_group.toNat 0 ∧
      (∀ i : Int, 2 ≤ i → i ≤ 10 →
        ((((List.replicate 28 (0 : Int)).set 7 4).set 8 9).set 9 9).getD i.toNat 0 ≤
          (scanGroup ((((List.replicate 28 (0 : Int)).set 7 4).set 8 9).set 9 9) 2
            10).current_max_val_in_group) ∧
      (∀ i : Int, 2 ≤ i →
        i < (scanGroup ((((List.replicate 28 (0 : Int)).set 7 4).set 8 9).set 9 9) 2
          10).current_original_index_of_max_in_group →
        ((((List.replicate 28 (0 : Int)).set 7 4).set 8 9).set 9 9).getD i.toNat 0 <
          (scanGroup ((((List.replicate 28 (0 : Int)).set 7 4).set 8 9).set 9 9) 2
            10).current_max_val_in_group) :=
  ⟨⟨by decide, by unfold validGroup; decide, by decide, by decide⟩,
    C11_group_scan_sum_max_first_index
      ((((List.replicate 28 (0 : Int)).set 7 4).set 8 9).set 9 9) (by decide) 2 10
      (by unfold validGroup; decide) (by decide)⟩

/-- C12: for every MatchCount array of the matcher's shape (length 28, zero at
indices 0..2 and 27) in which at least one count is positive, some group
qualifies, the default path is not taken (at least two extrema, a best group is
recorded), and the returned value `r = pos + 1` satisfies
`MatchCount[r-1] > 0`. -/
theorem C12_signal_is_never_inconclusive (resolutions : List Int)
    (hlen : resolutions.length = 28)
    (hzero : ∀ j : Nat, j < 3 ∨ 27 ≤ j → resolutions.getD j 0 = 0)
    (hsome : ∃ x ∈ resolutions, 0 < x) :
    (∃ p ∈ adjacentPairs (extremaMIN_indices resolutions), qualifies resolutions p) ∧
      ¬ (extremaMIN_indices resolutions).length < 2 ∧
      (bestGroup resolutions).best_original_index_of_max ≠ -1 ∧
      selectResolution resolutions =
        (bestGroup resolutions).best_original_index_of_max + 1 ∧
      0 < resolutions.getD (selectResolution resolutions - 1).toNat 0 := by
  obtain ⟨x, hx, hxpos⟩ := hsome
  obtain ⟨j, hj, hxj⟩ := List.mem_iff_getElem.mp hx
  have hget : resolutions.getD j 0 = x := by
    rw [List.getD_eq_getElem _ _ hj]
    exact hxj
  have hj3 : ¬ (j < 3 ∨ 27 ≤ j) := by
    intro hc
    have := hzero j hc
    omega
  have hex := exists_qualifying resolutions hlen (j : Int) (by omega) (by omega)
    (by rw [Int.toNat_ofNat, hget]; exact hxpos)
  obtain ⟨p, hp, hq, hb, hsel, _⟩ := select_eq_best resolutions hex
  have hidx := groupEntry_index resolutions p hq
  refine ⟨hex, adjacentPairs_length hp, ?_, ?_, ?_⟩
  · rw [hb]
    omega
  · rw [hb]
    exact hsel
  · rw [hsel]
    have e : (groupEntry resolutions p).best_original_index_of_max + 1 - 1 =
        (groupEntry resolutions p).best_original_index_of_max := by omega
    rw [e]
    exact hidx.2.2.2.2

set_option maxRecDepth 100000 in
theorem C12_signal_is_never_inconclusive_witness :
    (((List.replicate 28 (0 : Int)).set 7 4).set 8 9).length = 28 ∧
      (∃ p ∈ adjacentPairs (extremaMIN_indices (((List.replicate 28 0).set 7 4).set 8 9)),
        qualifies (((List.replicate 28 0).set 7 4).set 8 9) p) ∧
      ¬ (extremaMIN_indices (((List.replicate 28 0).set 7 4).set 8 9)).length < 2 ∧
      (bestGroup (((List.replicate 28 0).set 7 4).set 8 9)).best_original_index_of_max ≠ -1 ∧
      selectResolution (((List.replicate 28 0).set 7 4).set 8 9) =
        (bestGroup (((List.replicate 28 0).set 7 4).set 8 9)).best_original_index_of_max + 1 ∧
      0 < (((List.replicate 28 (0 : Int)).set 7 4).set 8 9).getD
        (selectResolution (((List.replicate 28 0).set 7 4).set 8 9) - 1).toNat 0 :=
  ⟨by decide,
    C12_signal_is_never_inconclusive (((List.replicate 28 0).set 7 4).set 8 9) (by decide)
      (by
        intro j hj
        by_cases h28 : j < 28
        · interval_cases j <;> first | decide | omega
        · exact List.getD_eq_default _ _
            (by rw [List.length_set, List.length_set, List.length_replicate]; omega))
      ⟨9, by decide, by decide⟩⟩

/-- C13: on every valid image, a `masksize` in `[4,27]` whose canvas side
`2*masksize + 3` exceeds the width or the height is skipped: its pattern slot
stays empty, `MatchCount[masksize-1]` stays 0, and neither a pattern creation
nor a match is recorded for it.  Consequently, when the result `r` comes from a
recorded best group (not the default path), `2*r + 3 <= width` and
`2*r + 3 <= height`. -/
theorem C13_oversized_candidates_are_never_reported (cv : Matcher) (img : Image)
    (hvalid : validInput img) :
    (∀ m : Int, 4 ≤ m → m ≤ 27 → oversized img.width img.height m →
        (createPatterns img.width img.height).1.getD (m - 2).toNat none = none ∧
        (resolutionsOf cv img).getD (m - 1).toNat 0 = 0 ∧
        Event.patternCreated m ∉ (detectMosaicResolution cv img).trace ∧
        Event.matched m ∉ (detectMosaicResolution cv img).trace) ∧
      ((bestGroup (resolutionsOf cv img)).best_original_index_of_max ≠ -1 →
        (detectMosaicResolution cv img).result =
          (bestGroup (resolutionsOf cv img)).best_original_index_of_max + 1 ∧
        2 * (detectMosaicResolution cv img).result + 3 ≤ img.width ∧
        2 * (detectMosaicResolution cv img).result + 3 ≤ img.height) := by
  rw [detect_valid cv img hvalid]
  dsimp only
  constructor
  · intro m h4 h27 hov
    refine ⟨((createPatterns_spec img.width img.height).2.1 m h4 h27).2 hov,
      (resolutionsOf_spec cv img m h4 h27).2 hov, ?_, ?_⟩
    · intro hmem
      rcases trace_fits cv img _ hmem with h | ⟨x, h | h, hx⟩
      · cases h
      · cases h
        exact hx hov
      · cases h
    · intro hmem
      rcases trace_fits cv img _ hmem with h | ⟨x, h | h, hx⟩
      · cases h
      · cases h
      · cases h
        exact hx hov
  · intro hne
    obtain ⟨hlen, hzero⟩ := resolutionsOf_shape cv img
    have hsel := select_of_recorded _ hne
    rcases bestGroup_inv (resolutionsOf cv img) with h | ⟨h0, h1, h2⟩
    · exact absurd h hne
    · have h3 : ¬ ((bestGroup (resolutionsOf cv img)).best_original_index_of_max.toNat < 3 ∨
          27 ≤ (bestGroup (resolutionsOf cv img)).best_original_index_of_max.toNat) := by
        intro hc
        have := hzero _ hc
        omega
      have hfit : ¬ oversized img.width img.height
          ((bestGroup (resolutionsOf cv img)).best_original_index_of_max + 1) := by
        intro hov
        have hz := (resolutionsOf_spec cv img _ (by omega) (by omega)).2 hov
        have e : ((bestGroup (resolutionsOf cv img)).best_original_index_of_max + 1 - 1) =
            (bestGroup (resolutionsOf cv img)).best_original_index_of_max := by omega
        rw [e] at hz
        omega
      unfold oversized at hfit
      rw [hsel]
      refine ⟨rfl, by omega, by omega⟩

set_option maxRecDepth 100000 in
theorem C13_oversized_candidates_are_never_reported_witness :
    (validInput ⟨some (List.replicate (30 * 40 * 3) 200), 30, 40, 3⟩ ∧
      oversized 30 40 14 ∧
      (bestGroup (resolutionsOf ⟨fun _ p => p.rows.toNat⟩
        ⟨some (List.replicate (30 * 40 * 3) 200), 30, 40, 3⟩)).best_original_index_of_max
        = 12) ∧
      (∀ m : Int, 4 ≤ m → m ≤ 27 → oversized 30 40 m →
        (createPatterns 30 40).1.getD (m - 2).toNat none = none ∧
        (resolutionsOf ⟨fun _ p => p.rows.toNat⟩
          ⟨some (List.replicate (30 * 40 * 3) 200), 30, 40, 3⟩).getD (m - 1).toNat 0 = 0 ∧
        Event.patternCreated m ∉ (detectMosaicResolution ⟨fun _ p => p.rows.toNat⟩
          ⟨some (List.replicate (30 * 40 * 3) 200), 30, 40, 3⟩).trace ∧
        Event.matched m ∉ (detectMosaicResolution ⟨fun _ p => p.rows.toNat⟩
          ⟨some (List.replicate (30 * 40 * 3) 200), 30, 40, 3⟩).trace) ∧
      ((bestGroup (resolutionsOf ⟨fun _ p => p.rows.toNat⟩
          ⟨some (List.replicate (30 * 40 * 3) 200), 30, 40, 3⟩)).best_original_index_of_max
          ≠ -1 →
        (detectMosaicResolution ⟨fun _ p => p.rows.toNat⟩
            ⟨some (List.replicate (30 * 40 * 3) 200), 30, 40, 3⟩).result =
          (bestGroup (resolutionsOf ⟨fun _ p => p.rows.toNat⟩
            ⟨some (List.replicate (30 * 40 * 3) 200), 30, 40, 3⟩)).best_original_index_of_max
            + 1 ∧
        2 * (detectMosaicResolution ⟨fun _ p => p.rows.toNat⟩
          ⟨some (List.replicate (30 * 40 * 3) 200), 30, 40, 3⟩).result + 3 ≤ 30 ∧
        2 * (detectMosaicResolution ⟨fun _ p => p.rows.toNat⟩
          ⟨some (List.replicate (30 * 40 * 3) 200), 30, 40, 3⟩).result + 3 ≤ 40) :=
  ⟨⟨by unfold validInput; decide, by unfold oversized; decide, by decide⟩,
    C13_oversized_candidates_are_never_reported ⟨fun _ p => p.rows.toNat⟩
      ⟨some (List.replicate (30 * 40 * 3) 200), 30, 40, 3⟩ (by unfold validInput; decide)⟩

/-- C14: for every `masksize` `m` from 4 on (so for every `m` in `[4,27]`) the
generated canvas is square
with side `S = 2*m + 3`, and the offsets `2, 2+(m-1), 2+2*(m-1), ...` taken
while below `S` are exactly `2, m+1, 2*m`, for the vertical and for the
horizontal lines; every offset lies in `[0, S-1]`, and the margin before the
first line (2) equals the margin after the last one (`S - 1 - 2*m = 2`). -/
theorem C14_pattern_has_three_lines (m : Int) (h4 : 4 ≤ m) :
    (makePattern m).rows = 2 * m + 3 ∧ (makePattern m).cols = 2 * m + 3 ∧
      (makePattern m).vlines = [2, m + 1, 2 * m] ∧
      (makePattern m).hlines = [2, m + 1, 2 * m] ∧
      (∀ x ∈ (makePattern m).vlines, 0 ≤ x ∧ x ≤ (makePattern m).cols - 1) ∧
      (∀ y ∈ (makePattern m).hlines, 0 ≤ y ∧ y ≤ (makePattern m).rows - 1) ∧
      (makePattern m).cols - 1 - 2 * m = 2 ∧ (makePattern m).rows - 1 - 2 * m = 2 := by
  rw [makePattern_eq m h4]
  dsimp only
  refine ⟨rfl, rfl, rfl, rfl, ?_, ?_, by omega, by omega⟩
  · intro x hx
    simp only [List.mem_cons, List.mem_singleton, List.not_mem_nil, or_false] at hx
    omega
  · intro y hy
    simp only [List.mem_cons, List.mem_singleton, List.not_mem_nil, or_false] at hy
    omega

theorem C14_pattern_has_three_lines_witness :
    (4 : Int) ≤ 10 ∧
      (makePattern 10).rows = 2 * 10 + 3 ∧ (makePattern 10).cols = 2 * 10 + 3 ∧
      (makePattern 10).vlines = [2, 10 + 1, 2 * 10] ∧
      (makePattern 10).hlines = [2, 10 + 1, 2 * 10] ∧
      (∀ x ∈ (makePattern 10).vlines, 0 ≤ x ∧ x ≤ (makePattern 10).cols - 1) ∧
      (∀ y ∈ (makePattern 10).hlines, 0 ≤ y ∧ y ≤ (makePattern 10).rows - 1) ∧
      (makePattern 10).cols - 1 - 2 * 10 = 2 ∧ (makePattern 10).rows - 1 - 2 * 10 = 2 :=
  ⟨by decide, C14_pattern_has_three_lines 10 (by decide)⟩

/-- C15: for every MatchCount array of the matcher's shape (length 28,
non-negative, zero at indices 0..2 and 27) the extrema index list is strictly
increasing, its first element is the sentinel `LowRange = 2`, its last element
is the sentinel `HighRange + 2 = 27`, the elements in between are exactly the
recorded local minima in their order, and every recorded minimum lies in
`[4,26]`. -/
theorem C15_extrema_list_shape (resolutions : List Int)
    (hlen : resolutions.length = 28) (hnn : ∀ x ∈ resolutions, 0 ≤ x)
    (hzero : ∀ j : Nat, j < 3 ∨ 27 ≤ j → resolutions.getD j 0 = 0) :
    (extremaMIN_indices resolutions).Pairwise (· < ·) ∧
      (extremaMIN_indices resolutions).head? = some 2 ∧
      (extremaMIN_indices resolutions).getLast? = some 27 ∧
      extremaMIN_indices resolutions = [2] ++ localMinima resolutions ++ [27] ∧
      ∀ x ∈ localMinima resolutions, 4 ≤ x ∧ x ≤ 26 := by
  have h3 : 0 ≤ resolutions.getD 3 0 := by
    rcases getD_mem_or_default resolutions 3 with h | h
    · exact hnn _ h
    · omega
  obtain ⟨hmin, heq⟩ := extrema_eq resolutions hlen h3 (fun j hj => hzero j (Or.inl hj))
  refine ⟨extrema_strict resolutions, ?_, ?_, heq, hmin⟩
  · rw [heq]
    rfl
  · rw [heq, List.getLast?_append]
    rfl

set_option maxRecDepth 100000 in
theorem C15_extrema_list_shape_witness :
    (((List.replicate 28 (0 : Int)).set 7 4).set 12 9).length = 28 ∧
      (extremaMIN_indices (((List.replicate 28 0).set 7 4).set 12 9)).Pairwise (· < ·) ∧
      (extremaMIN_indices (((List.replicate 28 0).set 7 4).set 12 9)).head? = some 2 ∧
      (extremaMIN_indices (((List.replicate 28 0).set 7 4).set 12 9)).getLast? = some 27 ∧
      extremaMIN_indices (((List.replicate 28 0).set 7 4).set 12 9) =
        [2] ++ localMinima (((List.replicate 28 0).set 7 4).set 12 9) ++ [27] ∧
      ∀ x ∈ localMinima (((List.replicate 28 0).set 7 4).set 12 9), 4 ≤ x ∧ x ≤ 26 :=
  ⟨by decide,
    C15_extrema_list_shape (((List.replicate 28 0).set 7 4).set 12 9) (by decide) (by decide)
      (by
        intro j hj
        by_cases h28 : j < 28
        · interval_cases j <;> first | decide | omega
        · exact List.getD_eq_default _ _
            (by rw [List.length_set, List.length_set, List.length_replicate]; omega))⟩

/-- C16: for every `masksize` of the loop range `[LowRange+2, HighRange+2] =
[4,27]`, the pattern index `masksize - 2` is an index of the `patterns` vector
(length 27) and the resolution index `masksize - 1` is an index of the
MatchCount vector (length 28, in every state the matching loop can be in), so
the test of lines 135-136 is false; the slot `masksize - 2` read by the
matching is the one the generation wrote for the same `masksize`, the count of
that pattern lands in slot `masksize - 1`, and distinct masksizes have distinct
slots. -/
theorem C16_index_mappings_are_valid (cv : Matcher) (img : Image) (m : Int)
    (h4 : 4 ≤ m) (h27 : m ≤ 27) :
    m ∈ descend (HighRange + 2) (LowRange + 2) ∧
      ((createPatterns img.width img.height).1.length = 27 ∧ 0 ≤ m - 2 ∧ m - 2 < 27) ∧
      ((resolutionsOf cv img).length = 28 ∧ 0 ≤ m - 1 ∧ m - 1 < 28) ∧
      (∀ (visited : List Int) (trace : List Event),
        ¬ (m - 2 < 0 ∨ m - 2 ≥ (createPatterns img.width img.height).1.length ∨ m - 1 < 0 ∨
          m - 1 ≥ (visited.foldl (matchStep cv img (createPatterns img.width img.height).1)
            (List.replicate (HighRange + 3).toNat 0, trace)).1.length)) ∧
      (¬ oversized img.width img.height m →
        (createPatterns img.width img.height).1.getD (m - 2).toNat none =
          some (makePattern m) ∧
        (resolutionsOf cv img).getD (m - 1).toNat 0 =
          wrapInt (cv.countMatches img (makePattern m))) ∧
      (∀ m' : Int, 4 ≤ m' → m' ≤ 27 → m' ≠ m →
        (m' - 2).toNat ≠ (m - 2).toNat ∧ (m' - 1).toNat ≠ (m - 1).toNat) := by
  obtain ⟨p1, p2, _⟩ := createPatterns_spec img.width img.height
  refine ⟨mem_descend.mpr (by simp only [LowRange, HighRange]; omega),
    ⟨p1, by omega, by omega⟩, ⟨(resolutionsOf_shape cv img).1, by omega, by omega⟩, ?_, ?_, ?_⟩
  · intro visited trace
    rw [match_fold_length, p1]
    have hl : (List.replicate (HighRange + 3).toNat (0 : Int), trace).1.length = 28 := rfl
    rw [hl]
    omega
  · intro hfit
    exact ⟨(p2 m h4 h27).1 hfit, (resolutionsOf_spec cv img m h4 h27).1 hfit⟩
  · intro m' h4' h27' hne
    constructor
    · omega
    · omega

set_option maxRecDepth 100000 in
theorem C16_index_mappings_are_valid_witness :
    ((4 : Int) ≤ 10 ∧ (10 : Int) ≤ 27) ∧
      (10 : Int) ∈ descend (HighRange + 2) (LowRange + 2) ∧
      ((createPatterns 64 64).1.length = 27 ∧ (0 : Int) ≤ 10 - 2 ∧ (10 : Int) - 2 < 27) ∧
      ((resolutionsOf ⟨fun _ p => p.rows.toNat⟩
          ⟨some (List.replicate (64 * 64 * 3) 200), 64, 64, 3⟩).length = 28 ∧
        (0 : Int) ≤ 10 - 1 ∧ (10 : Int) - 1 < 28) ∧
      (∀ (visited : List Int) (trace : List Event),
        ¬ ((10 : Int) - 2 < 0 ∨ (10 : Int) - 2 ≥ (createPatterns 64 64).1.length ∨
          (10 : Int) - 1 < 0 ∨
          (10 : Int) - 1 ≥ (visited.foldl (matchStep ⟨fun _ p => p.rows.toNat⟩
            ⟨some (List.replicate (64 * 64 * 3) 200), 64, 64, 3⟩ (createPatterns 64 64).1)
            (List.replicate (HighRange + 3).toNat 0, trace)).1.length)) ∧
      (¬ oversized 64 64 10 →
        (createPatterns 64 64).1.getD ((10 : Int) - 2).toNat none = some (makePattern 10) ∧
        (resolutionsOf ⟨fun _ p => p.rows.toNat⟩
            ⟨some (List.replicate (64 * 64 * 3) 200), 64, 64, 3⟩).getD ((10 : Int) - 1).toNat 0 =
          wrapInt ((23 : Nat) : Int)) ∧
      (∀ m' : Int, 4 ≤ m' → m' ≤ 27 → m' ≠ 10 →
        (m' - 2).toNat ≠ ((10 : Int) - 2).toNat ∧ (m' - 1).toNat ≠ ((10 : Int) - 1).toNat) :=
  ⟨by decide,
    C16_index_mappings_are_valid ⟨fun _ p => p.rows.toNat⟩
      ⟨some (List.replicate (64 * 64 * 3) 200), 64, 64, 3⟩ 10 (by decide) (by decide)⟩

/-- C17: whenever a best group was found (the recorded index is not the initial
`-1`), the recorded `pos` is an index of the MatchCount array, `pos >= 0`, so
`pos + 1` is not 0, the fallback of lines 343-346 is not taken and the value
returned is `pos + 1`; when the slots 0..2 are 0, as in every array the matcher
produces, `pos >= 3`. -/
theorem C17_zero_fallback_unreachable (resolutions : List Int)
    (h : (bestGroup resolutions).best_original_index_of_max ≠ -1) :
    0 ≤ (bestGroup resolutions).best_original_index_of_max ∧
      (bestGroup resolutions).best_original_index_of_max < resolutions.length ∧
      (bestGroup resolutions).best_original_index_of_max + 1 ≠ 0 ∧
      selectResolution resolutions =
        (bestGroup resolutions).best_original_index_of_max + 1 ∧
      ((∀ j : Nat, j < 3 → resolutions.getD j 0 = 0) →
        3 ≤ (bestGroup resolutions).best_original_index_of_max) := by
  rcases bestGroup_inv resolutions with h1 | ⟨h0, h1, h2⟩
  · exact absurd h1 h
  · refine ⟨h0, h1, by omega, ?_, ?_⟩
    · rcases fold_optimal resolutions (adjacentPairs (extremaMIN_indices resolutions)) with
        ⟨_, hinit⟩ | ⟨p, hp, _, _, _⟩
      · have hb : bestGroup resolutions = initialBest := hinit
        rw [hb] at h
        exact absurd rfl h
      · unfold selectResolution
        dsimp only
        rw [if_neg (adjacentPairs_length hp), if_pos h, if_neg (by omega)]
    · intro hz
      by_contra hlt
      have := hz (bestGroup resolutions).best_original_index_of_max.toNat (by omega)
      omega

set_option maxRecDepth 100000 in
theorem C17_zero_fallback_unreachable_witness :
    (bestGroup (((List.replicate 28 0).set 7 4).set 8 9)).best_original_index_of_max ≠ -1 ∧
      0 ≤ (bestGroup (((List.replicate 28 0).set 7 4).set 8 9)).best_original_index_of_max ∧
      (bestGroup (((List.replicate 28 0).set 7 4).set 8 9)).best_original_index_of_max <
        (((List.replicate 28 (0 : Int)).set 7 4).set 8 9).length ∧
      (bestGroup (((List.replicate 28 0).set 7 4).set 8 9)).best_original_index_of_max + 1 ≠ 0 ∧
      selectResolution (((List.replicate 28 0).set 7 4).set 8 9) =
        (bestGroup (((List.replicate 28 0).set 7 4).set 8 9)).best_original_index_of_max + 1 ∧
      ((∀ j : Nat, j < 3 → (((List.replicate 28 (0 : Int)).set 7 4).set 8 9).getD j 0 = 0) →
        3 ≤ (bestGroup (((List.replicate 28 0).set 7 4).set 8 9)).best_original_index_of_max) :=
  ⟨by decide,
    C17_zero_fallback_unreachable (((List.replicate 28 0).set 7 4).set 8 9) (by decide)⟩

/-- C18: the percentage bonuses do not change the decisions of the selector.
On non-negative integers whose scores fit an `int` the maps
`s -> s + floor(s/20)` (`sumScore`) and `m -> m + floor(3m/20)` (`maxScore`)
are strictly increasing; and for every MatchCount array of non-negative counts
whose group totals, with the larger bonus, fit an `int`, the Resolution
Selector records the same index and returns the same value as the selector
that compares the raw group sum and the raw group maximum. -/
theorem C18_bonuses_do_not_change_the_result (resolutions : List Int)
    (hnn : ∀ x ∈ resolutions, 0 ≤ x)
    (hfit : ∀ p ∈ adjacentPairs (extremaMIN_indices resolutions),
      groupTotal resolutions p.1 p.2 + 3 * groupTotal resolutions p.1 p.2 / 20 <
        2147483648) :
    (∀ a b : Int, 0 ≤ a → a < b → b + 3 * b / 20 < 2147483648 →
        sumScore a < sumScore b ∧ maxScore a < maxScore b) ∧
      (bestGroupRaw resolutions).best_original_index_of_max =
        (bestGroup resolutions).best_original_index_of_max ∧
      selectResolutionRaw resolutions = selectResolution resolutions := by
  have hrel := bestGroup_scoreRel resolutions hnn hfit
  refine ⟨?_, hrel.1.symm, ?_⟩
  · intro a b ha hab hb
    rw [sumScore_eq a ha (by omega), sumScore_eq b (by omega) (by omega),
      maxScore_eq a ha (by omega), maxScore_eq b (by omega) hb]
    constructor
    · omega
    · omega
  · unfold selectResolutionRaw selectResolution
    dsimp only
    rw [hrel.1]

set_option maxRecDepth 100000 in
theorem C18_bonuses_do_not_change_the_result_witness :
    ((∀ x ∈ [0, 0, 0, 3, 19, 21, 2, 0, 0, 20, 20, 1, 0, 0, 0, 40, 0, 0, 0, 0, 5, 6, 7, 0, 0, 0,
          39, 0], (0 : Int) ≤ x) ∧
      (∀ p ∈ adjacentPairs (extremaMIN_indices
          [0, 0, 0, 3, 19, 21, 2, 0, 0, 20, 20, 1, 0, 0, 0, 40, 0, 0, 0, 0, 5, 6, 7, 0, 0, 0,
            39, 0]),
        groupTotal
            [0, 0, 0, 3, 19, 21, 2, 0, 0, 20, 20, 1, 0, 0, 0, 40, 0, 0, 0, 0, 5, 6, 7, 0, 0, 0,
              39, 0] p.1 p.2 +
          3 * groupTotal
            [0, 0, 0, 3, 19, 21, 2, 0, 0, 20, 20, 1, 0, 0, 0, 40, 0, 0, 0, 0, 5, 6, 7, 0, 0, 0,
              39, 0] p.1 p.2 / 20 < 2147483648)) ∧
      (∀ a b : Int, 0 ≤ a → a < b → b + 3 * b / 20 < 2147483648 →
        sumScore a < sumScore b ∧ maxScore a < maxScore b) ∧
      (bestGroupRaw
          [0, 0, 0, 3, 19, 21, 2, 0, 0, 20, 20, 1, 0, 0, 0, 40, 0, 0, 0, 0, 5, 6, 7, 0, 0, 0,
            39, 0]).best_original_index_of_max =
        (bestGroup
          [0, 0, 0, 3, 19, 21, 2, 0, 0, 20, 20, 1, 0, 0, 0, 40, 0, 0, 0, 0, 5, 6, 7, 0, 0, 0,
            39, 0]).best_original_index_of_max ∧
      selectResolutionRaw
          [0, 0, 0, 3, 19, 21, 2, 0, 0, 20, 20, 1, 0, 0, 0, 40, 0, 0, 0, 0, 5, 6, 7, 0, 0, 0,
            39, 0] =
        selectResolution
          [0, 0, 0, 3, 19, 21, 2, 0, 0, 20, 20, 1, 0, 0, 0, 40, 0, 0, 0, 0, 5, 6, 7, 0, 0, 0,
            39, 0] :=
  ⟨⟨by decide, by decide⟩,
    C18_bonuses_do_not_change_the_result
      [0, 0, 0, 3, 19, 21, 2, 0, 0, 20, 20, 1, 0, 0, 0, 40, 0, 0, 0, 0, 5, 6, 7, 0, 0, 0, 39, 0]
      (by decide) (by decide)⟩

/-- C19: for every MatchCount array the groups are visited in ascending order:
a group ends where no later group has started yet, so the position of the
maximum of a later group is never below that of an earlier group.  Whenever the
loop reaches a qualifying group with a best group already recorded, the third
tie-break test (current index below the best index) is false, and the selector
equals the one with that test removed, which keeps the earlier group on a full
tie. -/
theorem C19_index_tiebreak_never_fires (resolutions : List Int) :
    (adjacentPairs (extremaMIN_indices resolutions)).Pairwise
        (fun p q => p.2 ≤ q.1 ∧
          (scanGroup resolutions p.1 p.2).current_original_index_of_max_in_group ≤
            (scanGroup resolutions q.1 q.2).current_original_index_of_max_in_group) ∧
      (∀ (earlier : List (Int × Int)) (p : Int × Int) (later : List (Int × Int)),
        adjacentPairs (extremaMIN_indices resolutions) = earlier ++ p :: later →
        qualifies resolutions p →
        (earlier.foldl (groupStep resolutions) initialBest).best_original_index_of_max ≠ -1 →
        ¬ (scanGroup resolutions p.1 p.2).current_original_index_of_max_in_group <
          (earlier.foldl (groupStep resolutions) initialBest).best_original_index_of_max) ∧
      bestGroupKeepEarlier resolutions = bestGroup resolutions ∧
      selectResolutionKeepEarlier resolutions = selectResolution resolutions := by
  have hord := adjacentPairs_ordered _ (extrema_sorted resolutions)
  refine ⟨?_, ?_, bestGroup_eq_keepEarlier resolutions, ?_⟩
  · refine List.Pairwise.imp_of_mem ?_ hord
    intro p q hp hq hpq
    have hp1 := (adjacentPairs_strict _ (extrema_strict resolutions) p hp).1
    have hq1 := (adjacentPairs_strict _ (extrema_strict resolutions) q hq).1
    have h1 := scanGroup_index_range resolutions p.1 p.2 (by omega)
    have h2 := scanGroup_index_range resolutions q.1 q.2 (by omega)
    exact ⟨hpq, by omega⟩
  · intro earlier p later hsplit hq hne
    rw [hsplit] at hord
    have hbefore := (List.pairwise_append.mp hord).2.2
    rcases fold_optimal resolutions earlier with ⟨_, hinit⟩ | ⟨q, hqmem, hqq, hfin, _⟩
    · rw [hinit] at hne
      exact absurd rfl hne
    · rw [hfin]
      have h1 := (groupEntry_index resolutions q hqq).2.2.2.1
      have h2 := hbefore q hqmem p (List.mem_cons_self _ _)
      have h3 := (groupEntry_index resolutions p hq).2.2.1
      have e : (groupEntry resolutions p).best_original_index_of_max =
          (scanGroup resolutions p.1 p.2).current_original_index_of_max_in_group := rfl
      omega
  · unfold selectResolutionKeepEarlier selectResolution
    rw [bestGroup_eq_keepEarlier resolutions]

/-- C20: for every MatchCount array of length 28, whatever integers it holds,
the extrema list has at least 2 elements and every adjacent pair `(start, end)`
satisfies `0 <= start < end <= 27`; so the path for fewer than 2 extrema is not
taken, every group passes the bounds check of lines 260-262, and every index
the group scan reads is an index of the array. -/
theorem C20_groups_are_well_formed (resolutions : List Int)
    (hlen : resolutions.length = 28) :
    ¬ (extremaMIN_indices resolutions).length < 2 ∧
      ∀ p ∈ adjacentPairs (extremaMIN_indices resolutions),
        (0 ≤ p.1 ∧ p.1 < p.2 ∧ p.2 ≤ 27) ∧ validGroup resolutions p ∧
          ∀ i ∈ ascend p.1 p.2, 0 ≤ i ∧ i < resolutions.length := by
  refine ⟨extrema_length resolutions, ?_⟩
  intro p hp
  obtain ⟨hlt, h1, h2⟩ :=
    adjacentPairs_strict _ (extrema_strict resolutions) p hp
  have b1 := extrema_bounds resolutions hlen p.1 h1
  have b2 := extrema_bounds resolutions hlen p.2 h2
  refine ⟨⟨by omega, hlt, b2.2⟩, ?_, ?_⟩
  · unfold validGroup
    omega
  · intro i hi
    have := mem_ascend.mp hi
    omega

theorem C20_groups_are_well_formed_witness :
    ([5, -3, -7, 0, 2, 2, 1, 9, -1, -1, 4, 4, 4, 0, 0, 3, 8, 1, 1, 0, 6, 5, 4, 3, 2, 1, 0, -2]
        : List Int).length = 28 ∧
      ¬ (extremaMIN_indices
        [5, -3, -7, 0, 2, 2, 1, 9, -1, -1, 4, 4, 4, 0, 0, 3, 8, 1, 1, 0, 6, 5, 4, 3, 2, 1, 0, -2]
        ).length < 2 ∧
      ∀ p ∈ adjacentPairs (extremaMIN_indices
        [5, -3, -7, 0, 2, 2, 1, 9, -1, -1, 4, 4, 4, 0, 0, 3, 8, 1, 1, 0, 6, 5, 4, 3, 2, 1, 0, -2]),
        (0 ≤ p.1 ∧ p.1 < p.2 ∧ p.2 ≤ 27) ∧
          validGroup
            [5, -3, -7, 0, 2, 2, 1, 9, -1, -1, 4, 4, 4, 0, 0, 3, 8, 1, 1, 0, 6, 5, 4, 3, 2, 1, 0,
              -2] p ∧
          ∀ i ∈ ascend p.1 p.2, 0 ≤ i ∧ i < ([5, -3, -7, 0, 2, 2, 1, 9, -1, -1, 4, 4, 4, 0, 0, 3,
            8, 1, 1, 0, 6, 5, 4, 3, 2, 1, 0, -2] : List Int).length :=
  ⟨by decide,
    C20_groups_are_well_formed
      [5, -3, -7, 0, 2, 2, 1, 9, -1, -1, 4, 4, 4, 0, 0, 3, 8, 1, 1, 0, 6, 5, 4, 3, 2, 1, 0, -2]
      (by decide)⟩

end MosaicDetect
